import Mathlib

/-!
# api_golang: helm chart installation and image inspection (`main.go`)

A shallow embedding of the pure parts of `main.go` and of the Go standard
library functions they call (`unicode/utf8`, `unicode`, `strings`, `bufio`,
`strconv`), followed by theorems about `ExtractImagesFromManifests`,
`isChartInstallable`, the image name handed to the container engine, the layer
summary of `LayersSizeImages` and `ImagePull` with its completion check.

Conventions.
* A Go `string` and a Go `[]byte` are finite byte sequences: `GoString` is a
  list of byte values (natural numbers `0 .. 255`).
* A Go `rune` is modelled by its non-negative code point.
* Go's `int64` arithmetic is modelled on `Int` with explicit wrap-around.
* Loops whose termination is not structural carry a fuel argument; the entry
  points supply enough fuel and this is proved.
* What the Docker client answers to `ImagePull` is a parameter of the model
  (`DockerClient`).
-/

namespace ApiGolang

/-- A Go string or byte slice: a finite sequence of byte values. -/
abbrev GoString := List Nat

/-! ## Package `unicode/utf8` -/

/-- The constant `utf8.RuneError`, the replacement character U+FFFD. -/
def RuneError : Nat := 0xFFFD

/-- The constant `utf8.RuneSelf`: bytes below it are single-byte runes. -/
def RuneSelf : Nat := 0x80

/-- The constant `utf8.MaxRune`. -/
def MaxRune : Nat := 0x10FFFF

/-- The constant `utf8.UTFMax`: the longest encoding of a rune, in bytes. -/
def UTFMax : Nat := 4

/-- The table `utf8.first`: information about the first byte of an encoding.
`0xF0` (`as`) marks ASCII, `0xF1` (`xx`) an invalid first byte; otherwise the low
three bits give the size and the high four bits index `acceptRanges`. -/
def first (b : Nat) : Nat :=
  if b < 0x80 then 0xF0
  else if b < 0xC2 then 0xF1
  else if b < 0xE0 then 0x02
  else if b = 0xE0 then 0x13
  else if b < 0xED then 0x03
  else if b = 0xED then 0x23
  else if b < 0xF0 then 0x03
  else if b = 0xF0 then 0x34
  else if b < 0xF4 then 0x04
  else if b = 0xF4 then 0x44
  else 0xF1

/-- The table `utf8.acceptRanges`: the admissible range `(lo, hi)` of the second
byte of an encoding. Entries that the source leaves unset are zero. -/
def acceptRanges (i : Nat) : Nat × Nat :=
  match i with
  | 0 => (0x80, 0xBF)
  | 1 => (0xA0, 0xBF)
  | 2 => (0x80, 0x9F)
  | 3 => (0x90, 0xBF)
  | 4 => (0x80, 0x8F)
  | _ => (0, 0)

/-- The function `utf8.DecodeRuneInString`: the first rune of `s` and its width
in bytes; `(RuneError, 0)` for the empty string and `(RuneError, 1)` for an
invalid encoding. -/
def DecodeRuneInString (s : GoString) : Nat × Nat :=
  match s with
  | [] => (RuneError, 0)
  | s0 :: t =>
    let x := first s0
    if x ≥ 0xF0 then
      (if x = 0xF1 then RuneError else s0, 1)
    else
      let sz := x &&& 7
      let accept := acceptRanges (x >>> 4)
      if s.length < sz then (RuneError, 1)
      else
        match t with
        | [] => (RuneError, 1)
        | s1 :: t1 =>
          if s1 < accept.1 ∨ accept.2 < s1 then (RuneError, 1)
          else if sz ≤ 2 then (((s0 &&& 0x1F) <<< 6) ||| (s1 &&& 0x3F), 2)
          else
            match t1 with
            | [] => (RuneError, 1)
            | s2 :: t2 =>
              if s2 < 0x80 ∨ 0xBF < s2 then (RuneError, 1)
              else if sz ≤ 3 then
                (((s0 &&& 0x0F) <<< 12) ||| ((s1 &&& 0x3F) <<< 6) ||| (s2 &&& 0x3F), 3)
              else
                match t2 with
                | [] => (RuneError, 1)
                | s3 :: _ =>
                  if s3 < 0x80 ∨ 0xBF < s3 then (RuneError, 1)
                  else
                    (((s0 &&& 0x07) <<< 18) ||| ((s1 &&& 0x3F) <<< 12) |||
                      ((s2 &&& 0x3F) <<< 6) ||| (s3 &&& 0x3F), 4)

/-- The function `utf8.RuneStart`: `b` is not a continuation byte. -/
def RuneStart (b : Nat) : Bool := (b &&& 0xC0) != 0x80

/-- The backward search of `utf8.DecodeLastRuneInString`: starting at index
`start` and not going below `lim`, the index of the nearest byte that can start
a rune. `none` stands for the loop running off below `lim`. -/
def lastRuneStart (s : GoString) (lim : Nat) : Nat → Nat → Option Nat
  | 0, _ => none
  | steps + 1, start =>
    if start < lim then none
    else if RuneStart (s.getD start 0) then some start
    else if start = 0 then none
    else lastRuneStart s lim steps (start - 1)

/-- The function `utf8.DecodeLastRuneInString`: the last rune of `s` and its
width in bytes. -/
def DecodeLastRuneInString (s : GoString) : Nat × Nat :=
  let e := s.length
  if e = 0 then (RuneError, 0)
  else
    let r := s.getD (e - 1) 0
    if r < RuneSelf then (r, 1)
    else
      let lim := e - UTFMax
      let start :=
        if e - 1 = 0 then 0
        else
          match lastRuneStart s lim (UTFMax + 1) (e - 2) with
          | some i => i
          | none => lim - 1
      let d := DecodeRuneInString (s.drop start)
      if start + d.2 ≠ e then (RuneError, 1) else d

/-- The function `utf8.ValidRune`: `r` can be legally encoded as UTF-8. -/
def ValidRune (r : Nat) : Bool :=
  if r < 0xD800 then true
  else if 0xDFFF < r ∧ r ≤ MaxRune then true
  else false

/-- The function `utf8.AppendRune` applied to the empty slice (equally
`utf8.EncodeRune`): the UTF-8 encoding of the rune `r`. -/
def EncodeRune (r : Nat) : GoString :=
  if r ≤ 0x7F then [r]
  else if r ≤ 0x7FF then [0xC0 ||| (r >>> 6), 0x80 ||| (r &&& 0x3F)]
  else if r > MaxRune ∨ (0xD800 ≤ r ∧ r ≤ 0xDFFF) then [0xEF, 0xBF, 0xBD]
  else if r ≤ 0xFFFF then
    [0xE0 ||| (r >>> 12), 0x80 ||| ((r >>> 6) &&& 0x3F), 0x80 ||| (r &&& 0x3F)]
  else
    [0xF0 ||| (r >>> 18), 0x80 ||| ((r >>> 12) &&& 0x3F),
      0x80 ||| ((r >>> 6) &&& 0x3F), 0x80 ||| (r &&& 0x3F)]

/-- A string literal of the source file: Go source text is UTF-8, so the value
of a literal is the UTF-8 encoding of its characters. -/
def lit (s : String) : GoString :=
  s.toList.foldr (fun c acc => EncodeRune c.toNat ++ acc) []

/-! ## Package `unicode` -/

/-- The function `unicode.IsSpace`: in Latin-1 the characters tab, newline,
vertical tab, form feed, carriage return, space, U+0085 and U+00A0; above it
the `White_Space` property table. -/
def IsSpace (r : Nat) : Bool :=
  if r ≤ 0xFF then
    r = 0x09 ∨ r = 0x0A ∨ r = 0x0B ∨ r = 0x0C ∨ r = 0x0D ∨ r = 0x20 ∨ r = 0x85 ∨ r = 0xA0
  else
    r = 0x1680 ∨ (0x2000 ≤ r ∧ r ≤ 0x200A) ∨ r = 0x2028 ∨ r = 0x2029 ∨ r = 0x202F ∨
      r = 0x205F ∨ r = 0x3000

/-! ## Package `strings` -/

/-- The function `strings.HasPrefix`:
`len(s) >= len(prefix) && s[:len(prefix)] == prefix`. -/
def HasPrefix (s pre : GoString) : Bool :=
  s.length ≥ pre.length && s.take pre.length == pre

/-- The function `strings.Index`: the index of the first instance of `substr`
in `s`; Go's `-1` is `none`. -/
def Index : GoString → GoString → Option Nat
  | [], substr => if HasPrefix [] substr then some 0 else none
  | c :: t, substr =>
    if HasPrefix (c :: t) substr then some 0
    else (Index t substr).map (· + 1)

/-- The function `strings.Contains`: `Index(s, substr) >= 0`. -/
def Contains (s substr : GoString) : Bool := (Index s substr).isSome

/-- The loop of `strings.indexFunc`, a `range` loop over the runes of the
string: `i` is the byte index reached and `rest` is `s[i:]`. -/
def indexFuncLoop (f : Nat → Bool) (truth : Bool) : Nat → Nat → GoString → Option Nat
  | 0, _, _ => none
  | fuel + 1, i, rest =>
    match rest with
    | [] => none
    | _ :: _ =>
      let d := DecodeRuneInString rest
      if f d.1 == truth then some i
      else indexFuncLoop f truth fuel (i + d.2) (rest.drop d.2)

/-- The function `strings.indexFunc`: the byte index of the first rune `r`
with `f(r) == truth`; Go's `-1` is `none`. -/
def indexFunc (s : GoString) (f : Nat → Bool) (truth : Bool) : Option Nat :=
  indexFuncLoop f truth s.length 0 s

/-- The loop of `strings.lastIndexFunc`: `i` is the end of the part of `s` still
to be examined. -/
def lastIndexFuncLoop (s : GoString) (f : Nat → Bool) (truth : Bool) : Nat → Nat → Option Nat
  | 0, _ => none
  | fuel + 1, i =>
    if i = 0 then none
    else
      let d := DecodeLastRuneInString (s.take i)
      if f d.1 == truth then some (i - d.2)
      else lastIndexFuncLoop s f truth fuel (i - d.2)

/-- The function `strings.lastIndexFunc`: the byte index of the last rune `r`
with `f(r) == truth`; Go's `-1` is `none`. -/
def lastIndexFunc (s : GoString) (f : Nat → Bool) (truth : Bool) : Option Nat :=
  lastIndexFuncLoop s f truth s.length s.length

/-- The function `strings.TrimLeftFunc`. -/
def TrimLeftFunc (s : GoString) (f : Nat → Bool) : GoString :=
  match indexFunc s f false with
  | none => []
  | some i => s.drop i

/-- The function `strings.TrimRightFunc`. -/
def TrimRightFunc (s : GoString) (f : Nat → Bool) : GoString :=
  match lastIndexFunc s f false with
  | some i =>
    if s.getD i 0 ≥ RuneSelf then s.take (i + (DecodeRuneInString (s.drop i)).2)
    else s.take (i + 1)
  | none => s.take 0

/-- The function `strings.TrimFunc`. -/
def TrimFunc (s : GoString) (f : Nat → Bool) : GoString :=
  TrimRightFunc (TrimLeftFunc s f) f

/-- The table `strings.asciiSpace`. -/
def asciiSpace (c : Nat) : Bool :=
  c = 0x09 ∨ c = 0x0A ∨ c = 0x0B ∨ c = 0x0C ∨ c = 0x0D ∨ c = 0x20

/-- The second loop of `strings.TrimSpace`, on `u = s[start:]`: `stop` runs down
from the end while the byte before it is an ASCII space; a non-ASCII byte hands
over to `TrimRightFunc`. -/
def trimSpaceStop (u : GoString) : Nat → GoString
  | 0 => []
  | stop + 1 =>
    let c := u.getD stop 0
    if c ≥ RuneSelf then TrimRightFunc (u.take (stop + 1)) IsSpace
    else if asciiSpace c then trimSpaceStop u stop
    else u.take (stop + 1)

/-- The function `strings.TrimSpace`: `s` without leading and trailing white
space as defined by Unicode. The first loop skips ASCII spaces from the front
and hands over to `TrimFunc` at a non-ASCII byte. -/
def TrimSpace : GoString → GoString
  | [] => []
  | c :: t =>
    if c ≥ RuneSelf then TrimFunc (c :: t) IsSpace
    else if asciiSpace c then TrimSpace t
    else trimSpaceStop (c :: t) (c :: t).length

/-- The loop of `strings.genSplit` for a non-empty separator: at most `n` more
cuts are made. -/
def genSplitLoop (sep : GoString) (sepSave : Nat) : Nat → GoString → List GoString
  | 0, s => [s]
  | n + 1, s =>
    match Index s sep with
    | none => [s]
    | some m => s.take (m + sepSave) :: genSplitLoop sep sepSave n (s.drop (m + sep.length))

/-- The loop of `strings.explode`: `s` cut into runes, at most `n` more
one-rune pieces before the rest. -/
def explodeLoop : Nat → GoString → List GoString
  | 0, s => [s]
  | n + 1, s =>
    let size := (DecodeRuneInString s).2
    s.take size :: explodeLoop n (s.drop size)

/-- The function `utf8.RuneCountInString`, by repeated decoding. -/
def RuneCountInString : Nat → GoString → Nat
  | 0, _ => 0
  | fuel + 1, s =>
    match s with
    | [] => 0
    | _ :: _ => 1 + RuneCountInString fuel (s.drop (DecodeRuneInString s).2)

/-- The function `strings.SplitN` for a count `n ≥ 0` (the program passes 2):
`s` cut around the first `n - 1` instances of `sep`; the last piece is the
unsplit remainder. -/
def SplitN (s sep : GoString) (n : Nat) : List GoString :=
  if n = 0 then []
  else if sep = [] then
    let l := RuneCountInString s.length s
    let n := if n > l then l else n
    if n = 0 then [] else explodeLoop (n - 1) s
  else
    let n := if n > s.length + 1 then s.length + 1 else n
    genSplitLoop sep 0 (n - 1) s

/-! ## Package `bufio`: `Scanner` with the default split function `ScanLines` -/

/-- The constant `bufio.MaxScanTokenSize`: 64 KiB, the largest buffer a scanner
allocates unless told otherwise. -/
def MaxScanTokenSize : Nat := 64 * 1024

/-- The constant `bufio.startBufSize`: the size of the first buffer. -/
def startBufSize : Nat := 4096

/-- The largest value of a Go `int` on a 64-bit platform. -/
def maxInt : Nat := 2 ^ 63 - 1

/-- The errors a `Scanner` can hold in `s.err`. -/
inductive ScanError where
  | EOF
  | ErrTooLong
  | ErrAdvanceTooFar
  | ErrNoProgress
  deriving DecidableEq, Repr

/-- The state of a `bufio.Scanner` reading from a `strings.Reader`.
The buffer `s.buf` is represented by its length `bufLen` and by the bytes in use
`window = s.buf[s.start:s.end]` (the other bytes of the buffer are never read),
so that `s.end = start + window.length`. -/
structure Scanner where
  /-- The reader `s.r`: the part of the input not yet read. -/
  r : GoString
  /-- The field `s.maxTokenSize`. -/
  maxTokenSize : Nat
  /-- The length `len(s.buf)`. -/
  bufLen : Nat
  /-- The field `s.start`. -/
  start : Nat
  /-- The bytes `s.buf[s.start:s.end]`. -/
  window : GoString
  /-- The field `s.token`; Go's `nil` is `none`. -/
  token : Option GoString
  /-- The field `s.err`; Go's `nil` is `none`. -/
  err : Option ScanError
  deriving DecidableEq, Repr

/-- The index `s.end`. -/
def Scanner.bufEnd (s : Scanner) : Nat := s.start + s.window.length

/-- The function `bufio.NewScanner` applied to `strings.NewReader(text)`. -/
def NewScanner (text : GoString) : Scanner :=
  { r := text, maxTokenSize := MaxScanTokenSize, bufLen := 0, start := 0, window := [],
    token := none, err := none }

/-- The method `Scanner.setErr`: records the first non-EOF error. -/
def Scanner.setErr (s : Scanner) (e : ScanError) : Scanner :=
  if s.err = none ∨ s.err = some ScanError.EOF then { s with err := some e } else s

/-- The method `Scanner.Text`: the most recent token as a string. -/
def Scanner.Text (s : Scanner) : GoString := s.token.getD []

/-- The function `bytes.IndexByte`: the index of the first `c` in `b`; Go's `-1`
is `none`. -/
def IndexByte : GoString → Nat → Option Nat
  | [], _ => none
  | x :: t, c => if x = c then some 0 else (IndexByte t c).map (· + 1)

/-- The function `bufio.dropCR`: drops a terminal carriage return. -/
def dropCR (data : GoString) : GoString :=
  if data.length > 0 ∧ data.getD (data.length - 1) 0 = 13 then data.take (data.length - 1)
  else data

/-- The split function `bufio.ScanLines`, returning `(advance, token)`; its error
result is always `nil`. The end-of-line marker is one optional carriage return
followed by one mandatory newline; the last non-empty line is returned even
without a newline. -/
def ScanLines (data : GoString) (atEOF : Bool) : Nat × Option GoString :=
  if atEOF ∧ data.length = 0 then (0, none)
  else
    match IndexByte data 10 with
    | some i => (i + 1, some (dropCR (data.take i)))
    | none => if atEOF then (data.length, some (dropCR data)) else (0, none)

/-- The first block of the loop of `Scanner.Scan`: "see if we can get a token
with what we already have". When data or an error is held, the split function
is called on `s.buf[s.start:s.end]` and the scanner advances. The result is
either the return value of `Scan` (left) or the scanner with which the loop
goes on (right). `ScanLines` never fails and never returns a negative advance, so
the branches of `Scan` for a split error are not represented. -/
def Scanner.trySplit (s : Scanner) : (Bool × Scanner) ⊕ Scanner :=
  if s.bufEnd > s.start ∨ s.err ≠ none then
    let res := ScanLines s.window (s.err ≠ none)
    if res.1 > s.bufEnd - s.start then
      Sum.inl (false, s.setErr ScanError.ErrAdvanceTooFar)
    else
      let s1 := { s with start := s.start + res.1, window := s.window.drop res.1,
                         token := res.2 }
      if res.2 ≠ none then Sum.inl (true, s1) else Sum.inr s1
  else Sum.inr s

/-- The block "shift data to beginning of buffer if there's lots of empty space
or space is needed". -/
def Scanner.shift (s : Scanner) : Scanner :=
  if s.start > 0 ∧ (s.bufEnd = s.bufLen ∨ s.start > s.bufLen / 2) then { s with start := 0 }
  else s

/-- The test that makes `Scan` fail with `ErrTooLong`: the buffer is full and
may not grow. -/
def Scanner.tooLong (s : Scanner) : Bool :=
  s.bufEnd = s.bufLen ∧ (s.bufLen ≥ s.maxTokenSize ∨ s.bufLen > maxInt / 2)

/-- The block "is the buffer full? If so, resize": the buffer doubles, starting
at `startBufSize` and never exceeding `maxTokenSize`. -/
def Scanner.grow (s : Scanner) : Scanner :=
  if s.bufEnd = s.bufLen then
    let newSize := s.bufLen * 2
    let newSize := if newSize = 0 then startBufSize else newSize
    let newSize := min newSize s.maxTokenSize
    { s with bufLen := newSize, start := 0 }
  else s

/-- The block "finally we can read some input": one successful call of
`strings.Reader.Read` on `s.buf[s.end:len(s.buf)]`, which copies as many bytes as
fit and reports `io.EOF` only when nothing is left. (With no room in the buffer
the reader would return zero bytes a hundred times: `ErrNoProgress`.) -/
def Scanner.read (s : Scanner) : Scanner :=
  if s.r.length = 0 then s.setErr ScanError.EOF
  else
    let n := min (s.bufLen - s.bufEnd) s.r.length
    if n = 0 then s.setErr ScanError.ErrNoProgress
    else { s with window := s.window ++ s.r.take n, r := s.r.drop n }

/-- The loop of the method `Scanner.Scan`, one iteration per unit of fuel. The
result is the boolean returned by `Scan` and the scanner afterwards; `none`
means the fuel ran out. -/
def scanLoop : Nat → Scanner → Option (Bool × Scanner)
  | 0, _ => none
  | fuel + 1, s =>
    match s.trySplit with
    | Sum.inl res => some res
    | Sum.inr s =>
      -- We cannot generate a token with what we are holding.
      -- If we've already hit EOF or an I/O error, we are done.
      if s.err ≠ none then some (false, { s with start := 0, window := [] })
      else
        -- Must read more data.
        let s := s.shift
        if s.tooLong then some (false, s.setErr ScanError.ErrTooLong)
        else scanLoop fuel s.grow.read

/-- The method `Scanner.Scan`: advances to the next token. Every iteration of
its loop either returns, reads at least one byte or records the end of input,
so `len(r) + 2` iterations are enough. -/
def Scanner.Scan (s : Scanner) : Option (Bool × Scanner) :=
  scanLoop (s.r.length + 2) s

/-! ## `main.go` -/

/-- The body of the loop of `ExtractImagesFromManifests` (lines 266-277): from
the text of the current token to the new value of `images`. -/
def extractStep (images : List GoString) (text : GoString) : List GoString :=
  let line := TrimSpace text
  if HasPrefix line (lit "image:") then
    let parts := SplitN line (lit "image:") 2
    if parts.length = 2 then
      let imgs := TrimSpace (parts.getD 1 [])
      if imgs ≠ [] ∧ ¬ HasPrefix imgs (lit "#") then images ++ [imgs] else images
    else images
  else images

/-- The loop `for scanner.Scan() { ... }` of `ExtractImagesFromManifests`, one
token per unit of fuel; `none` means the fuel (of this loop or of a `Scan`) ran
out. The error of the scanner is not looked at after the loop. -/
def extractLoop : Nat → Scanner → List GoString → Option (List GoString)
  | 0, _, _ => none
  | fuel + 1, scanner, images =>
    match scanner.Scan with
    | none => none
    | some (false, _) => some images
    | some (true, scanner) => extractLoop fuel scanner (extractStep images scanner.Text)

/-- The function `ExtractImagesFromManifests` of `main.go`. Every token consumes
at least one byte of the text, so `len(manifests) + 1` calls of `Scan` are
enough. -/
def ExtractImagesFromManifests (manifests : GoString) : Option (List GoString) :=
  extractLoop (manifests.length + 1) (NewScanner manifests) []

/-! ## Package `strconv`: `Unquote` -/

/-- The function `strconv.unhex`: the value of a hexadecimal digit. -/
def unhex (b : Nat) : Option Nat :=
  if 48 ≤ b ∧ b ≤ 57 then some (b - 48)
  else if 97 ≤ b ∧ b ≤ 102 then some (b - 97 + 10)
  else if 65 ≤ b ∧ b ≤ 70 then some (b - 65 + 10)
  else none

/-- The loop of `strconv.UnquoteChar` over the digits of a `\x`, `\u` or `\U`
escape: `v = v<<4 | x` for each digit. -/
def hexValue : GoString → Nat → Option Nat
  | [], v => some v
  | b :: t, v =>
    match unhex b with
    | none => none
    | some x => hexValue t ((v <<< 4) ||| x)

/-- The loop of `strconv.UnquoteChar` over the two further digits of an octal
escape: `v = (v << 3) | x` for each digit. -/
def octValue : GoString → Nat → Option Nat
  | [], v => some v
  | b :: t, v => if b < 48 ∨ b - 48 > 7 then none else octValue t ((v <<< 3) ||| (b - 48))

/-- The function `strconv.UnquoteChar`: decodes the first character or escape
sequence of `s`. The result is the value, the flag `multibyte` and the tail;
`none` is the error `ErrSyntax`. -/
def UnquoteChar (s : GoString) (quote : Nat) : Option (Nat × Bool × GoString) :=
  match s with
  | [] => none
  | c :: rest =>
    if c = quote ∧ (quote = 39 ∨ quote = 34) then none
    else if c ≥ RuneSelf then
      let d := DecodeRuneInString s
      some (d.1, true, s.drop d.2)
    else if c ≠ 92 then some (c, false, rest)
    else
      -- hard case: c is backslash
      match rest with
      | [] => none
      | c :: s =>
        if c = 97 then some (7, false, s)
        else if c = 98 then some (8, false, s)
        else if c = 102 then some (12, false, s)
        else if c = 110 then some (10, false, s)
        else if c = 114 then some (13, false, s)
        else if c = 116 then some (9, false, s)
        else if c = 118 then some (11, false, s)
        else if c = 120 ∨ c = 117 ∨ c = 85 then
          let n := if c = 120 then 2 else if c = 117 then 4 else 8
          if s.length < n then none
          else
            match hexValue (s.take n) 0 with
            | none => none
            | some v =>
              if c = 120 then some (v, false, s.drop n)
              else if ¬ ValidRune v then none
              else some (v, true, s.drop n)
        else if 48 ≤ c ∧ c ≤ 55 then
          if s.length < 2 then none
          else
            match octValue (s.take 2) (c - 48) with
            | none => none
            | some v => if v > 255 then none else some (v, false, s.drop 2)
        else if c = 92 then some (92, false, s)
        else if c = 39 ∨ c = 34 then (if c ≠ quote then none else some (c, false, s))
        else none

/-- The function `utf8.ValidString`: `s` consists of valid UTF-8 encodings. The
fuel bounds the number of runes. -/
def ValidString : Nat → GoString → Bool
  | 0, s => s.isEmpty
  | fuel + 1, s =>
    match s with
    | [] => true
    | si :: _ =>
      if si < RuneSelf then ValidString fuel (s.drop 1)
      else
        let x := first si
        if x = 0xF1 then false
        else
          let size := x &&& 7
          if size > s.length then false
          else
            let accept := acceptRanges (x >>> 4)
            let c1 := s.getD 1 0
            if c1 < accept.1 ∨ accept.2 < c1 then false
            else if size = 2 then ValidString fuel (s.drop size)
            else
              let c2 := s.getD 2 0
              if c2 < 0x80 ∨ 0xBF < c2 then false
              else if size = 3 then ValidString fuel (s.drop size)
              else
                let c3 := s.getD 3 0
                if c3 < 0x80 ∨ 0xBF < c3 then false
                else ValidString fuel (s.drop size)

/-- The loop of `strconv.unquote` for a quoted string with escape sequences:
`buf` collects the bytes of the value; the result is the value and the input
left after the last character taken, `none` is the error `ErrSyntax`. -/
def unquoteLoop (quote : Nat) : Nat → GoString → GoString → Option (GoString × GoString)
  | 0, s, buf => some (buf, s)
  | fuel + 1, s, buf =>
    match s with
    | [] => some (buf, s)
    | c :: _ =>
      if c = quote then some (buf, s)
      else
        match UnquoteChar s quote with
        | none => none
        | some (r, multibyte, rem) =>
          if c = 10 then none
          else
            let buf := if r < RuneSelf ∨ ¬ multibyte then buf ++ [r % 256] else buf ++ EncodeRune r
            -- Single quoted strings must be a single character.
            if quote = 39 then some (buf, rem) else unquoteLoop quote fuel rem buf

/-- The function `strconv.unquote` with `unescape = true`: the value of the
quoted string at the start of `s` and the input after it; `none` is the error
`ErrSyntax`. -/
def unquote (s : GoString) : Option (GoString × GoString) :=
  if s.length < 2 then none
  else
    let quote := s.getD 0 0
    match IndexByte (s.drop 1) quote with
    | none => none
    | some e =>
      -- position after the terminating quote
      let e := e + 2
      if quote = 96 then
        -- raw string: carriage returns are discarded
        some (((s.take (e - 1)).drop 1).filter (fun b => b ≠ 13), s.drop e)
      else if quote = 34 ∨ quote = 39 then
        let simple : Option (GoString × GoString) :=
          if (IndexByte (s.take e) 92).isNone ∧ (IndexByte (s.take e) 10).isNone then
            let body := (s.take (e - 1)).drop 1
            let valid :=
              if quote = 34 then ValidString body.length body
              else
                let d := DecodeRuneInString body
                decide (1 + d.2 + 1 = e) && (d.1 != RuneError || d.2 != 1)
            if valid then some (body, s.drop e) else none
          else none
        match simple with
        | some res => some res
        | none =>
          -- quoted strings with escape sequences
          match unquoteLoop quote s.length (s.drop 1) [] with
          | none => none
          | some (buf, rest) =>
            match rest with
            | [] => none
            | c :: rest => if c = quote then some (buf, rest) else none
      else none

/-- The function `strconv.Unquote`: the string that the Go string literal `s`
(double-quoted, back-quoted or a single-quoted character) denotes, with a
`nil` error; or the empty string with the error `ErrSyntax` (`true`). -/
def Unquote (s : GoString) : GoString × Bool :=
  match unquote s with
  | none => ([], true)
  | some (out, rem) => if rem.length > 0 then ([], true) else (out, false)

/-! ## `main.go`, continued -/

/-- The function `isChartInstallable` of `main.go`, on the field
`ch.Metadata.Type`: the verdict and the error, whose message is
`"<type> charts are not installable"`; Go's `nil` is `none`. -/
def isChartInstallable (chType : GoString) : Bool × Option GoString :=
  if chType = lit "" ∨ chType = lit "application" then (true, none)
  else (false, some (chType ++ lit " charts are not installable"))

/-- How a step of `InstallChart` ends: the function goes on, or `log.Fatal`
prints the error and ends the process. -/
inductive StepOutcome where
  | proceed
  | fatal (err : Option GoString)
  deriving DecidableEq, Repr

/-- Lines 210-213 of `InstallChart`: the chart type check. -/
def InstallChart_typeCheck (chType : GoString) : StepOutcome :=
  let res := isChartInstallable chType
  if ¬ res.1 then StepOutcome.fatal res.2 else StepOutcome.proceed

/-- Lines 291 and 337 of `main.go`, `imgs, _ := strconv.Unquote(nombreImagen)`:
the image name that `ImagePull` passes to `cli.ImagePull` and `LayersSizeImages`
passes to `cli.ImageHistory`. The error of `Unquote` is discarded. -/
def engineImageName (nombreImagen : GoString) : GoString := (Unquote nombreImagen).1

/-- A Go `int64` result: the integer `x` wrapped around into `-2^63 .. 2^63 - 1`. -/
def wrapInt64 (x : Int) : Int := (x + 2 ^ 63) % 2 ^ 64 - 2 ^ 63

/-- An entry of the layer history returned by `cli.ImageHistory`; only the field
`Size` (an `int64`) is used. -/
structure HistoryResponseItem where
  /-- The size of the layer in bytes. -/
  Size : Int
  deriving DecidableEq, Repr

/-- The type `InfoImagen` of `main.go`. -/
structure InfoImagen where
  /-- The image reference. -/
  Nombre : GoString
  /-- The total size of the layers, an `int64`. -/
  TotalSize : Int
  /-- The number of layers. -/
  CantidadCapas : Nat
  deriving DecidableEq, Repr

/-- Lines 340-349 of `LayersSizeImages`: the summary built from the history,
with `total += layer.Size` in `int64` arithmetic. -/
def LayersSizeImages_info (nombreImagen : GoString) (history : List HistoryResponseItem) :
    InfoImagen :=
  let total := history.foldl (fun total layer => wrapInt64 (total + layer.Size)) 0
  { Nombre := nombreImagen, TotalSize := total, CantidadCapas := history.length }

/-- An entry of the image list returned by `cli.ImageList`; only the field
`RepoTags` is used. -/
structure ImageSummary where
  /-- The tags of the image. -/
  RepoTags : List GoString
  deriving DecidableEq, Repr

/-- The state of the completion check of `ImagePull`: the counter of the wait
group, the number of calls of `wg.Done` made so far, and whether one of them
has panicked (`sync: negative WaitGroup counter`). -/
structure CheckState where
  /-- The counter of the wait group. -/
  counter : Int
  /-- The number of calls of `wg.Done`. -/
  doneCalls : Nat
  /-- Whether `wg.Done` has panicked. -/
  panicked : Bool
  deriving DecidableEq, Repr

/-- The method `wg.Done`, that is `wg.Add(-1)`: the counter goes down by one and
a negative counter panics. -/
def CheckState.Done (st : CheckState) : CheckState :=
  let counter := st.counter - 1
  { counter := counter, doneCalls := st.doneCalls + 1, panicked := decide (counter < 0) }

/-- The body of the inner loop of the completion check (lines 315-321), for one
tag; after a panic nothing runs any more. -/
def checkTag (nombreImagen : GoString) (st : CheckState) (tag : GoString) : CheckState :=
  if st.panicked then st
  else if Contains tag nombreImagen then st.Done
  else st

/-- The loops of the completion check of `ImagePull` (lines 313-322) over the
image list, after `wg.Add(1)`. This is the last part of `ImagePull` below, which
reaches it only when the pull has been accepted. -/
def ImagePull_check (list : List ImageSummary) (nombreImagen : GoString) : CheckState :=
  list.foldl (fun st ims => ims.RepoTags.foldl (checkTag nombreImagen) st)
    { counter := 1, doneCalls := 0, panicked := false }

/-- What the Docker client of `ImagePull` (`cli`, with the engine behind it)
answers to the calls the function makes. -/
structure DockerClient where
  /-- Whether `client.NewClientWithOpts` returns an error. -/
  newClientFails : Bool
  /-- Whether the pull of a reference that the client has parsed fails. -/
  pullFails : GoString → Bool
  /-- Whether `cli.ImageList` returns an error. -/
  listFails : Bool
  /-- The image list returned by `cli.ImageList`. -/
  list : List ImageSummary

/-- Whether `cli.ImagePull(ctx, refStr, ...)` returns an error. The client first
parses the reference (`reference.ParseNormalizedNamed`) and returns the error of
the parser without asking the engine; the empty reference does not parse. Every
other failure is the answer `pullFails` of the client. -/
def DockerClient.ImagePullFails (cli : DockerClient) (refStr : GoString) : Bool :=
  decide (refStr = []) || cli.pullFails refStr

/-- Where a run of `ImagePull` gets to. -/
inductive ImagePullExit where
  /-- Line 287: the client could not be made and the error is returned. -/
  | clientError
  /-- Line 299: `cli.ImagePull` has failed and the function panics, before the
  wait group exists. -/
  | pullPanic
  /-- Line 311: `cli.ImageList` has failed and the goroutine panics. -/
  | listPanic
  /-- Lines 313-322: the goroutine has gone through the image list. -/
  | checked
  deriving DecidableEq, Repr

/-- A run of `ImagePull`: where it gets to, and the wait group at that point. -/
structure ImagePullRun where
  /-- Where the run gets to. -/
  exit : ImagePullExit
  /-- The wait group `wg`; before `wg.Add(1)` its counter is zero. -/
  wg : CheckState
  deriving DecidableEq, Repr

/-- The function `ImagePull` of `main.go` (lines 282-326) up to the end of the
goroutine, which is followed through the whole image list: the client is made,
the name goes through `strconv.Unquote` with the error discarded, the result is
pulled and a failure panics (lines 291-300); then `wg.Add(1)`, the image list,
and the loops that call `wg.Done` at the tags containing `nombreImagen`. The
call `wg.Wait` of the calling goroutine, which returns once the counter is zero,
and the printing are left out. -/
def ImagePull (cli : DockerClient) (nombreImagen : GoString) : ImagePullRun :=
  if cli.newClientFails then
    { exit := ImagePullExit.clientError, wg := { counter := 0, doneCalls := 0, panicked := false } }
  else
    let imgs := (Unquote nombreImagen).1
    if cli.ImagePullFails imgs then
      { exit := ImagePullExit.pullPanic, wg := { counter := 0, doneCalls := 0, panicked := false } }
    else if cli.listFails then
      { exit := ImagePullExit.listPanic, wg := { counter := 1, doneCalls := 0, panicked := false } }
    else
      { exit := ImagePullExit.checked, wg := ImagePull_check cli.list nombreImagen }

/-! ## Notions used to state the behaviour of the scanner -/

/-- The input a scanner has still to deliver: the bytes held in its buffer
followed by the bytes not yet read. -/
def Scanner.pending (s : Scanner) : GoString := s.window ++ s.r

/-- The invariant of a scanner with token limit `M` between two calls of `Scan`
in `ExtractImagesFromManifests`: the data in use lies within the buffer, the
buffer is not larger than `M`, and the only error recorded, if any, is the end
of the input, found when the buffer still had room. -/
def Scanner.Inv (M : Nat) (s : Scanner) : Prop :=
  s.maxTokenSize = M ∧ M ≤ maxInt / 2 ∧ s.bufEnd ≤ s.bufLen ∧ s.bufLen ≤ M ∧
    (s.err = none ∨ (s.err = some ScanError.EOF ∧ s.r = [] ∧ s.bufEnd < s.bufLen))

/-- What one call of `Scan` delivers from the pending input `P` under the
token limit `M`: the token and the input left, or `none` when `Scan` returns
false (nothing is left, or the line up to the next newline does not fit in a
buffer of `M` bytes). -/
def absScan (M : Nat) (P : GoString) : Option (GoString × GoString) :=
  match IndexByte P 10 with
  | some i => if i < M then some (dropCR (P.take i), P.drop (i + 1)) else none
  | none => if P ≠ [] ∧ P.length < M then some (dropCR P, []) else none

/-- The result `res` of a call of `Scan` agrees with `absScan` on the pending
input `P`, and leaves a scanner that satisfies the invariant. -/
def ScanAgrees (M : Nat) (P : GoString) (res : Option (Bool × Scanner)) : Prop :=
  match absScan M P with
  | none => ∃ s', res = some (false, s')
  | some (tok, rest) =>
    ∃ s', res = some (true, s') ∧ s'.token = some tok ∧ s'.Inv M ∧ s'.pending = rest

/-! ## Notions used to state the behaviour of `ExtractImagesFromManifests` -/

/-- The lines of a text as a scanner has to buffer them: the segments between
newline bytes, a carriage return before the newline included. (A text that ends
in a newline has an empty last segment.) -/
def rawLines (text : GoString) : List GoString := text.splitOn 10

/-- The lines of a text whose lines are terminated by `\n` or `\r\n`: the
segments between newline bytes without the carriage return of the terminator. -/
def textLines (text : GoString) : List GoString := (rawLines text).map dropCR

/-- The lines a scanner with token limit `M` delivers: those before the first
line that does not fit. -/
def scannedLines (M : Nat) (text : GoString) : List GoString :=
  ((rawLines text).takeWhile (fun l => decide (l.length < M))).map dropCR

/-- The treatment of one line as the specification words it: trim the line;
if it starts with `image:`, take the text after that `image:` and trim it; the
value counts unless it is empty or starts with `#`. -/
def imageOfLine (line : GoString) : Option GoString :=
  let trimmed := TrimSpace line
  if HasPrefix trimmed (lit "image:") then
    let value := TrimSpace (trimmed.drop (lit "image:").length)
    if value = [] ∨ HasPrefix value (lit "#") then none else some value
  else none

/-- The extraction as the specification words it: one entry per qualifying
line, in line order, duplicates kept. -/
def specExtract (text : GoString) : List GoString := (textLines text).filterMap imageOfLine

/-- The lines `lines` joined with the line terminator `sep` between them. -/
def joinLines (sep : GoString) : List GoString → GoString
  | [] => []
  | [l] => l
  | l :: t => l ++ sep ++ joinLines sep t

/-! ## Notions used to state the behaviour of the completion check -/

/-- The repo tags of an image list that contain the image name, in the order of
the list. -/
def matchingTags (list : List ImageSummary) (nombreImagen : GoString) : List GoString :=
  (list.map (·.RepoTags)).flatten.filter (fun tag => Contains tag nombreImagen)

/-! ## Notions used to state the behaviour of `strings.TrimSpace` -/

/-- The part of `DecodeRuneInString` for a first byte that announces an encoding
of `sz` bytes whose second byte must lie in the range `accept`. -/
def decodeMulti (sz : Nat) (accept : Nat × Nat) (s0 : Nat) (t : GoString) : Nat × Nat :=
  if (s0 :: t).length < sz then (RuneError, 1)
  else
    match t with
    | [] => (RuneError, 1)
    | s1 :: t1 =>
      if s1 < accept.1 ∨ accept.2 < s1 then (RuneError, 1)
      else if sz ≤ 2 then (((s0 &&& 0x1F) <<< 6) ||| (s1 &&& 0x3F), 2)
      else
        match t1 with
        | [] => (RuneError, 1)
        | s2 :: t2 =>
          if s2 < 0x80 ∨ 0xBF < s2 then (RuneError, 1)
          else if sz ≤ 3 then
            (((s0 &&& 0x0F) <<< 12) ||| ((s1 &&& 0x3F) <<< 6) ||| (s2 &&& 0x3F), 3)
          else
            match t2 with
            | [] => (RuneError, 1)
            | s3 :: _ =>
              if s3 < 0x80 ∨ 0xBF < s3 then (RuneError, 1)
              else
                (((s0 &&& 0x07) <<< 18) ||| ((s1 &&& 0x3F) <<< 12) |||
                  ((s2 &&& 0x3F) <<< 6) ||| (s3 &&& 0x3F), 4)

/-- The string starts with white space: its first rune is a space. -/
def hasLeadingSpace (s : GoString) : Bool := IsSpace (DecodeRuneInString s).1

/-- The string ends with white space: its last rune is a space. -/
def hasTrailingSpace (s : GoString) : Bool := IsSpace (DecodeLastRuneInString s).1

/-! # Theorems -/

/-! ## Facts about `bytes.IndexByte` -/

theorem IndexByte_eq_none {l : GoString} {c : Nat} : IndexByte l c = none ↔ c ∉ l := by
  induction l with
  | nil => simp [IndexByte]
  | cons x t ih =>
    by_cases h : x = c
    · simp [IndexByte, h]
    · simp [IndexByte, h, ih, Ne.symm h]

theorem IndexByte_eq_some {l : GoString} {c i : Nat} (h : IndexByte l c = some i) :
    i < l.length ∧ c ∉ l.take i ∧ l = l.take i ++ c :: l.drop (i + 1) := by
  induction l generalizing i with
  | nil => simp [IndexByte] at h
  | cons x t ih =>
    by_cases hx : x = c
    · simp [IndexByte, hx] at h
      subst h; simp [hx]
    · simp only [IndexByte, hx, if_false, Option.map_eq_some'] at h
      obtain ⟨j, hj, rfl⟩ := h
      obtain ⟨h1, h2, h3⟩ := ih hj
      refine ⟨by simpa using h1, ?_, ?_⟩
      · simp [List.take_succ_cons, h2, Ne.symm hx]
      · simp only [List.take_succ_cons, List.drop_succ_cons, List.cons_append]
        rw [← h3]

theorem IndexByte_of_split {l rest : GoString} {c : Nat} (h : c ∉ l) :
    IndexByte (l ++ c :: rest) c = some l.length := by
  induction l with
  | nil => simp [IndexByte]
  | cons x t ih =>
    have hx : x ≠ c := fun e => h (by simp [e])
    have ht : c ∉ t := fun e => h (by simp [e])
    simp [IndexByte, hx, ih ht]

theorem IndexByte_append_some {l r : GoString} {c i : Nat} (h : IndexByte l c = some i) :
    IndexByte (l ++ r) c = some i := by
  obtain ⟨h1, h2, h3⟩ := IndexByte_eq_some h
  have : l ++ r = l.take i ++ c :: (l.drop (i + 1) ++ r) := by
    conv_lhs => rw [h3]
    simp
  rw [this, IndexByte_of_split h2]
  simp [List.length_take, Nat.min_eq_left (Nat.le_of_lt h1)]

theorem IndexByte_append_none {l r : GoString} {c : Nat} (h : IndexByte l c = none) :
    IndexByte (l ++ r) c = (IndexByte r c).map (· + l.length) := by
  induction l with
  | nil => simp
  | cons x t ih =>
    by_cases hx : x = c
    · simp [IndexByte, hx] at h
    · simp only [IndexByte, hx, if_false, Option.map_eq_none'] at h
      have e : IndexByte (x :: (t ++ r)) c = (IndexByte (t ++ r) c).map (· + 1) := by
        simp [IndexByte, hx]
      rw [List.cons_append, e, ih h]
      cases IndexByte r c <;> simp [Nat.add_assoc]

@[simp] theorem Scanner.bufEnd_sub_start (s : Scanner) : s.bufEnd - s.start = s.window.length := by
  simp [Scanner.bufEnd]

theorem ScanLines_eof (P : GoString) :
    ScanLines P true =
      match IndexByte P 10 with
      | some i => (i + 1, some (dropCR (P.take i)))
      | none => if P = [] then (0, none) else (P.length, some (dropCR P)) := by
  unfold ScanLines
  cases P with
  | nil => simp [IndexByte]
  | cons x t => simp

theorem ScanLines_more (P : GoString) :
    ScanLines P false =
      match IndexByte P 10 with
      | some i => (i + 1, some (dropCR (P.take i)))
      | none => (0, none) := by
  unfold ScanLines
  simp

/-- At the end of the input one iteration of the loop of `Scan` decides. -/
theorem scanLoop_eof {M : Nat} {s : Scanner} (h : s.Inv M) (he : s.err = some ScanError.EOF)
    (fuel : Nat) : ScanAgrees M s.pending (scanLoop (fuel + 1) s) := by
  obtain ⟨hM, hMax, hEnd, hLen, hErr⟩ := h
  rcases hErr with hErr | ⟨-, hr, hroom⟩
  · simp [he] at hErr
  have hP : s.pending = s.window := by simp [Scanner.pending, hr]
  have hwl : s.window.length < M := by
    have : s.window.length ≤ s.bufEnd := by simp [Scanner.bufEnd]
    omega
  unfold ScanAgrees absScan
  rw [hP]
  cases hi : IndexByte s.window 10 with
  | some i =>
    obtain ⟨h1, h2, h3⟩ := IndexByte_eq_some hi
    have hiM : i < M := by omega
    simp only [hiM, if_true]
    refine ⟨{ s with start := s.start + (i + 1), window := s.window.drop (i + 1),
                     token := some (dropCR (s.window.take i)) }, ?_, rfl, ?_, ?_⟩
    · have h1' : ¬ s.window.length < i + 1 := by omega
      simp [scanLoop, Scanner.trySplit, he, ScanLines_eof, hi, h1']
    · refine ⟨hM, hMax, ?_, hLen, Or.inr ⟨he, hr, ?_⟩⟩
      · simp only [Scanner.bufEnd, List.length_drop] at hEnd ⊢; omega
      · simp only [Scanner.bufEnd, List.length_drop] at hroom ⊢; omega
    · simp [Scanner.pending, hr]
  | none =>
    by_cases hw : s.window = []
    · simp only [hw, ne_eq, not_true_eq_false, false_and, if_false]
      simp [scanLoop, Scanner.trySplit, he, ScanLines_eof, hi, hw, IndexByte]
    · simp only [hw, ne_eq, not_false_eq_true, hwl, and_self, if_true]
      refine ⟨{ s with start := s.start + s.window.length,
                       window := s.window.drop s.window.length,
                       token := some (dropCR s.window) }, ?_, rfl, ?_, ?_⟩
      · simp [scanLoop, Scanner.trySplit, he, ScanLines_eof, hi, hw]
      · refine ⟨hM, hMax, ?_, hLen, Or.inr ⟨he, hr, ?_⟩⟩
        · simp only [Scanner.bufEnd, List.length_drop] at hEnd ⊢; omega
        · simp only [Scanner.bufEnd, List.length_drop] at hroom ⊢; omega
      · simp [Scanner.pending, hr]

theorem trySplit_more {s : Scanner} (he : s.err = none) (hi : IndexByte s.window 10 = none) :
    ∃ tok, s.trySplit = Sum.inr { s with token := tok } := by
  by_cases hw : s.window = []
  · refine ⟨s.token, ?_⟩
    unfold Scanner.trySplit
    rw [if_neg (by simp [Scanner.bufEnd, he, hw])]
  · refine ⟨none, ?_⟩
    have : 0 < s.window.length := List.length_pos.mpr hw
    simp [Scanner.trySplit, he, ScanLines_more, hi, Scanner.bufEnd, this]

theorem trySplit_token {s : Scanner} (he : s.err = none) {i : Nat}
    (hi : IndexByte s.window 10 = some i) :
    s.trySplit = Sum.inl (true, { s with start := s.start + (i + 1),
                                         window := s.window.drop (i + 1),
                                         token := some (dropCR (s.window.take i)) }) := by
  obtain ⟨h1, -, -⟩ := IndexByte_eq_some hi
  have h1' : ¬ s.window.length < i + 1 := by omega
  have h2 : 0 < s.window.length := by omega
  simp [Scanner.trySplit, he, ScanLines_more, hi, Scanner.bufEnd, h1', h2]

theorem shift_fields (s : Scanner) :
    s.shift.window = s.window ∧ s.shift.r = s.r ∧ s.shift.err = s.err ∧
      s.shift.bufLen = s.bufLen ∧ s.shift.maxTokenSize = s.maxTokenSize ∧
      (s.shift.start = s.start ∨ s.shift.start = 0) ∧
      (s.start + s.window.length ≤ s.bufLen → s.shift.start + s.window.length = s.bufLen →
        s.shift.start = 0) := by
  unfold Scanner.shift
  split
  · simp
  · rename_i h
    simp only [Scanner.bufEnd, not_and, not_or] at h
    simp only [true_and, true_or]
    omega

theorem grow_fields (s : Scanner) :
    s.grow.window = s.window ∧ s.grow.r = s.r ∧ s.grow.err = s.err ∧
      s.grow.maxTokenSize = s.maxTokenSize ∧
      (s.start + s.window.length ≠ s.bufLen → s.grow.bufLen = s.bufLen ∧ s.grow.start = s.start) ∧
      (s.start + s.window.length = s.bufLen → s.grow.start = 0 ∧
        s.grow.bufLen = min (if s.bufLen * 2 = 0 then 4096 else s.bufLen * 2) s.maxTokenSize) := by
  unfold Scanner.grow
  split
  · rename_i h
    simp only [Scanner.bufEnd] at h
    simp [h, startBufSize]
  · rename_i h
    simp only [Scanner.bufEnd] at h
    simp [h]

/-- When the buffer is full and may not grow, it holds `M` bytes of one line. -/
theorem tooLong_shift {M : Nat} {s : Scanner} (h : s.Inv M) (ht : s.shift.tooLong = true) :
    s.window.length = M := by
  obtain ⟨hM, hMax, hEnd, hLen, -⟩ := h
  obtain ⟨h1, h2, h3, h4, h5, h6, h7⟩ := shift_fields s
  simp only [Scanner.tooLong, Scanner.bufEnd, decide_eq_true_eq, h1, h4, h5] at ht hEnd
  have := h7 hEnd ht.1
  omega

/-- Making room and reading keeps the pending input and the invariant, and
either reads at least one byte or records the end of the input. -/
theorem fill_spec {M : Nat} {s : Scanner} (h : s.Inv M) (he : s.err = none)
    (ht : s.shift.tooLong = false) :
    s.shift.grow.read.Inv M ∧ s.shift.grow.read.pending = s.pending ∧
      (s.shift.grow.read.err = none → s.shift.grow.read.r.length < s.r.length) := by
  obtain ⟨hM, hMax, hEnd, hLen, -⟩ := h
  obtain ⟨h1, h2, h3, h4, h5, h6, h7⟩ := shift_fields s
  obtain ⟨g1, g2, g3, g4, g5, g6⟩ := grow_fields s.shift
  simp only [Scanner.tooLong, Scanner.bufEnd, decide_eq_false_iff_not, h1, h4, h5, not_and,
    not_or, not_le, not_lt] at ht hEnd
  rw [h1, h4] at g5 g6
  rw [h1] at g1
  rw [h2] at g2
  rw [h3, he] at g3
  rw [h5, hM] at g4
  -- the state after the resize
  have hroom : s.shift.grow.start + s.window.length < s.shift.grow.bufLen ∧
      s.shift.grow.bufLen ≤ M := by
    by_cases hfull : s.shift.start + s.window.length = s.bufLen
    · obtain ⟨e1, e2⟩ := g6 hfull
      have := ht hfull
      have := h7 hEnd hfull
      rw [e1, e2, h5, hM]
      split <;> omega
    · obtain ⟨e1, e2⟩ := g5 hfull
      rw [e1, e2]
      rcases h6 with h6 | h6 <;> omega
  generalize s.shift.grow = g at *
  unfold Scanner.read
  by_cases hr : g.r.length = 0
  · have hr' : g.r = [] := List.length_eq_zero.mp hr
    simp only [hr, if_true, Scanner.setErr, g3, true_or]
    refine ⟨⟨g4, hMax, ?_, hroom.2, Or.inr ⟨rfl, hr', ?_⟩⟩, ?_, ?_⟩
    · simp only [Scanner.bufEnd, g1]; omega
    · simp only [Scanner.bufEnd, g1]; omega
    · simp [Scanner.pending, g1, g2]
    · simp
  · have hn : min (g.bufLen - g.bufEnd) g.r.length ≠ 0 := by
      simp only [Scanner.bufEnd, g1, ne_eq, Nat.min_eq_zero_iff]; omega
    simp only [hr, if_false, hn]
    refine ⟨⟨g4, hMax, ?_, hroom.2, Or.inl g3⟩, ?_, ?_⟩
    · simp only [Scanner.bufEnd, List.length_append, List.length_take, g1]
      omega
    · simp [Scanner.pending, g1, ← g2, List.append_assoc]
    · intro _
      simp only [List.length_drop]
      rw [← g2]
      simp only [Scanner.bufEnd, g1]
      omega

/-- The loop of `Scan` agrees with `absScan`, given fuel for one iteration
per byte still to be read and two more. -/
theorem scanLoop_agrees {M : Nat} : ∀ (fuel : Nat) (s : Scanner), s.Inv M →
    (s.err = none → s.r.length + 2 ≤ fuel) → 1 ≤ fuel →
    ScanAgrees M s.pending (scanLoop fuel s) := by
  intro fuel
  induction fuel with
  | zero => intro s _ _ h; omega
  | succ fuel ih =>
    intro s hInv hfuel _
    have hInv' := hInv
    obtain ⟨hM, hMax, hEnd, hLen, hErr⟩ := hInv
    rcases hErr with he | ⟨he, -, -⟩
    swap
    · exact scanLoop_eof hInv' he fuel
    have hfuel := hfuel he
    cases hi : IndexByte s.window 10 with
    | some i =>
      obtain ⟨h1, h2, h3⟩ := IndexByte_eq_some hi
      have hwl : s.window.length ≤ M := by
        simp only [Scanner.bufEnd] at hEnd; omega
      have hP : IndexByte s.pending 10 = some i := IndexByte_append_some hi
      unfold ScanAgrees absScan
      rw [hP]
      have hiM : i < M := by omega
      simp only [hiM, if_true]
      have e1 : List.take i s.pending = s.window.take i := by
        simp only [Scanner.pending]
        rw [List.take_append_of_le_length (by omega)]
      have e2 : List.drop (i + 1) s.pending = s.window.drop (i + 1) ++ s.r := by
        simp only [Scanner.pending]
        rw [List.drop_append_of_le_length (by omega)]
      rw [e1, e2]
      refine ⟨{ s with start := s.start + (i + 1), window := s.window.drop (i + 1),
                       token := some (dropCR (s.window.take i)) }, ?_, rfl, ?_, rfl⟩
      · rw [scanLoop, trySplit_token he hi]
      · refine ⟨hM, hMax, ?_, hLen, Or.inl he⟩
        simp only [Scanner.bufEnd, List.length_drop] at hEnd ⊢; omega
    | none =>
      obtain ⟨tok, htok⟩ := trySplit_more he hi
      have hInv1 : Scanner.Inv M { s with token := tok } := by
        exact ⟨hM, hMax, hEnd, hLen, Or.inl he⟩
      have hP1 : Scanner.pending { s with token := tok } = s.pending := rfl
      have he1 : Scanner.err { s with token := tok } = none := he
      have hw1 : Scanner.window { s with token := tok } = s.window := rfl
      have hr1 : Scanner.r { s with token := tok } = s.r := rfl
      generalize ({ s with token := tok } : Scanner) = s1 at hInv1 hP1 he1 htok hw1 hr1
      rw [scanLoop, htok]
      simp only [he1, ne_eq, not_true_eq_false, if_false]
      by_cases ht : s1.shift.tooLong = true
      · simp only [ht, if_true]
        have hw := tooLong_shift hInv1 ht
        rw [hw1] at hw
        have hnone : absScan M s.pending = none := by
          unfold absScan
          simp only [Scanner.pending]
          rw [IndexByte_append_none hi]
          cases IndexByte s.r 10 with
          | some j => simp [hw]
          | none => simp [hw]
        unfold ScanAgrees
        rw [hnone]
        exact ⟨_, rfl⟩
      · simp only [ht, if_false]
        have ht' : s1.shift.tooLong = false := by simpa using ht
        obtain ⟨f1, f2, f3⟩ := fill_spec hInv1 he1 ht'
        rw [← hP1, ← f2]
        apply ih _ f1
        · intro h
          have := f3 h
          rw [hr1] at this
          omega
        · omega

/-- The method `Scan` agrees with `absScan`. -/
theorem Scan_agrees {M : Nat} {s : Scanner} (h : s.Inv M) : ScanAgrees M s.pending s.Scan :=
  scanLoop_agrees _ s h (fun _ => Nat.le_refl _) (by omega)

/-- A token consumes at least one byte of the pending input. -/
theorem absScan_length {M : Nat} {P tok rest : GoString} (h : absScan M P = some (tok, rest)) :
    rest.length < P.length := by
  unfold absScan at h
  cases hi : IndexByte P 10 with
  | some i =>
    obtain ⟨h1, -, -⟩ := IndexByte_eq_some hi
    rw [hi] at h
    simp only at h
    split at h
    · simp only [Option.some.injEq, Prod.mk.injEq] at h
      rw [← h.2, List.length_drop]; omega
    · simp at h
  | none =>
    rw [hi] at h
    simp only at h
    split at h
    · rename_i hP
      simp only [Option.some.injEq, Prod.mk.injEq] at h
      rw [← h.2]
      exact List.length_pos.mpr hP.1
    · simp at h

theorem rawLines_split {l rest : GoString} (h : 10 ∉ l) :
    rawLines (l ++ 10 :: rest) = l :: rawLines rest := by
  unfold rawLines List.splitOn
  apply List.splitOnP_first
  · intro x hx
    simp only [beq_iff_eq]
    rintro rfl
    exact h hx
  · simp

theorem rawLines_single {l : GoString} (h : 10 ∉ l) : rawLines l = [l] := by
  unfold rawLines List.splitOn
  apply List.splitOnP_eq_single
  intro x hx
  simp only [beq_iff_eq]
  rintro rfl
  exact h hx

theorem lit_image : lit "image:" = [105, 109, 97, 103, 101, 58] := by decide

theorem lit_hash : lit "#" = [35] := by decide

theorem dropCR_nil : dropCR [] = [] := by decide

theorem rawLines_of_index {P : GoString} {i : Nat} (hi : IndexByte P 10 = some i) :
    rawLines P = List.take i P :: rawLines (List.drop (i + 1) P) := by
  obtain ⟨-, h2, h3⟩ := IndexByte_eq_some hi
  conv_lhs => rw [h3]
  exact rawLines_split h2

theorem extractStep_nil (images : List GoString) : extractStep images [] = images := by
  simp [extractStep, TrimSpace, HasPrefix, lit_image]

/-- When `Scan` returns false, no further line is delivered. -/
theorem scannedLines_none {M : Nat} {P : GoString} (h : absScan M P = none)
    (images : List GoString) : (scannedLines M P).foldl extractStep images = images := by
  unfold absScan at h
  unfold scannedLines
  cases hi : IndexByte P 10 with
  | some i =>
    obtain ⟨h1, h2, h3⟩ := IndexByte_eq_some hi
    rw [hi] at h
    simp only [ite_eq_right_iff, reduceCtorEq, imp_false, not_lt] at h
    rw [rawLines_of_index hi]
    have : ¬ (i < M ∨ P.length < M) := by omega
    simp [List.takeWhile_cons, this]
  | none =>
    rw [hi] at h
    simp only [ite_eq_right_iff, reduceCtorEq, imp_false, not_and, not_lt] at h
    rw [rawLines_single (IndexByte_eq_none.mp hi)]
    by_cases hP : P = []
    · subst hP
      by_cases hM : 0 < M
      · simp [List.takeWhile_cons, hM, dropCR_nil, extractStep_nil]
      · simp [List.takeWhile_cons, hM]
    · have : ¬ P.length < M := by have := h hP; omega
      simp [List.takeWhile_cons, this]

/-- When `Scan` delivers a token, it is the first of the lines delivered. -/
theorem scannedLines_some {M : Nat} {P tok rest : GoString} (h : absScan M P = some (tok, rest))
    (images : List GoString) :
    (scannedLines M P).foldl extractStep images =
      (scannedLines M rest).foldl extractStep (extractStep images tok) := by
  unfold absScan at h
  cases hi : IndexByte P 10 with
  | some i =>
    obtain ⟨h1, h2, h3⟩ := IndexByte_eq_some hi
    rw [hi] at h
    simp only at h
    split at h
    · rename_i hiM
      simp only [Option.some.injEq, Prod.mk.injEq] at h
      obtain ⟨rfl, rfl⟩ := h
      have : i < M ∨ P.length < M := Or.inl hiM
      conv_lhs => rw [scannedLines, rawLines_of_index hi]
      simp [List.takeWhile_cons, this, scannedLines]
    · simp at h
  | none =>
    rw [hi] at h
    simp only at h
    split at h
    · rename_i hP
      simp only [Option.some.injEq, Prod.mk.injEq] at h
      obtain ⟨rfl, rfl⟩ := h
      have hM : 0 < M := by omega
      have e0 : rawLines [] = [[]] := rfl
      simp [scannedLines, rawLines_single (IndexByte_eq_none.mp hi), List.takeWhile_cons, hP.2,
        e0, hM, dropCR_nil, extractStep_nil]
    · simp at h

/-- The loop of `ExtractImagesFromManifests` folds its body over the lines the
scanner delivers, given fuel for one more round than bytes are pending. -/
theorem extractLoop_spec {M : Nat} : ∀ (fuel : Nat) (s : Scanner) (images : List GoString),
    s.Inv M → s.pending.length + 1 ≤ fuel →
    extractLoop fuel s images = some ((scannedLines M s.pending).foldl extractStep images) := by
  intro fuel
  induction fuel with
  | zero => intro s _ _ h; omega
  | succ fuel ih =>
    intro s images hInv hfuel
    have hs := Scan_agrees hInv
    unfold ScanAgrees at hs
    cases ha : absScan M s.pending with
    | none =>
      rw [ha] at hs
      obtain ⟨s', hs'⟩ := hs
      simp only [extractLoop, hs', scannedLines_none ha]
    | some p =>
      obtain ⟨tok, rest⟩ := p
      rw [ha] at hs
      obtain ⟨s', hs', htok, hInv', hrest⟩ := hs
      have hlen := absScan_length ha
      simp only [extractLoop, hs', Scanner.Text, htok, Option.getD_some]
      rw [ih s' _ hInv' (by rw [hrest]; omega), hrest, scannedLines_some ha]

theorem NewScanner_inv (text : GoString) : (NewScanner text).Inv MaxScanTokenSize := by
  refine ⟨rfl, ?_, ?_, ?_, Or.inl rfl⟩
  · decide
  · simp [NewScanner, Scanner.bufEnd]
  · simp [NewScanner]

/-- The function `ExtractImagesFromManifests` always returns, and what it returns
is the fold of its loop body over the lines before the first line of 64 KiB or
more. -/
theorem ExtractImagesFromManifests_eq_foldl (manifests : GoString) :
    ExtractImagesFromManifests manifests =
      some ((scannedLines MaxScanTokenSize manifests).foldl extractStep []) := by
  unfold ExtractImagesFromManifests
  rw [extractLoop_spec _ _ _ (NewScanner_inv manifests) (by simp [NewScanner, Scanner.pending])]
  simp [NewScanner, Scanner.pending]

theorem HasPrefix_Index {s sep : GoString} (h : HasPrefix s sep = true) : Index s sep = some 0 := by
  cases s with
  | nil => simp [Index, h]
  | cons c t => simp [Index, h]

theorem HasPrefix_length {s sep : GoString} (h : HasPrefix s sep = true) :
    sep.length ≤ s.length := by
  simp only [HasPrefix, ge_iff_le, Bool.and_eq_true, decide_eq_true_eq] at h
  exact h.1

/-- Splitting a string in two at a separator it starts with: an empty piece
and the rest. -/
theorem SplitN_two_of_HasPrefix {s sep : GoString} (hsep : sep ≠ [])
    (h : HasPrefix s sep = true) : SplitN s sep 2 = [[], s.drop sep.length] := by
  have h1 := HasPrefix_length h
  have h2 : 0 < sep.length := List.length_pos.mpr hsep
  have h3 : ¬ 2 > s.length + 1 := by omega
  simp [SplitN, hsep, h3, genSplitLoop, HasPrefix_Index h]

/-- The loop body of `ExtractImagesFromManifests` appends what the
specification takes from the line. -/
theorem extractStep_eq (images : List GoString) (text : GoString) :
    extractStep images text = images ++ (imageOfLine text).toList := by
  unfold extractStep imageOfLine
  by_cases hp : HasPrefix (TrimSpace text) (lit "image:") = true
  · have hsep : lit "image:" ≠ [] := by decide
    simp only [hp, if_true, SplitN_two_of_HasPrefix hsep hp, List.length_cons, List.length_nil]
    by_cases hv : TrimSpace (List.drop (lit "image:").length (TrimSpace text)) = []
    · simp [hv]
    · by_cases hc : HasPrefix (TrimSpace (List.drop (lit "image:").length (TrimSpace text)))
          (lit "#") = true
      · simp [hv, hc]
      · simp [hv, hc]
  · simp [hp]

theorem foldl_extractStep (lines : List GoString) (images : List GoString) :
    lines.foldl extractStep images = images ++ lines.filterMap imageOfLine := by
  induction lines generalizing images with
  | nil => simp
  | cons l t ih =>
    rw [List.foldl_cons, ih, extractStep_eq]
    cases h : imageOfLine l <;> simp [List.filterMap_cons, h]

/-- The function `ExtractImagesFromManifests` always returns; it returns what
the specification takes from the lines before the first line of 64 KiB or
more. -/
theorem ExtractImagesFromManifests_eq (manifests : GoString) :
    ExtractImagesFromManifests manifests =
      some ((scannedLines MaxScanTokenSize manifests).filterMap imageOfLine) := by
  rw [ExtractImagesFromManifests_eq_foldl, foldl_extractStep]
  simp

theorem scannedLines_of_short {M : Nat} {text : GoString}
    (h : ∀ l ∈ rawLines text, l.length < M) : scannedLines M text = textLines text := by
  unfold scannedLines textLines
  rw [List.takeWhile_eq_self_iff.mpr]
  intro l hl
  simpa using h l hl

theorem dropCR_of_not_mem {l : GoString} (h : 13 ∉ l) : dropCR l = l := by
  unfold dropCR
  split
  · rename_i hc
    exfalso
    apply h
    have hlt : l.length - 1 < l.length := by omega
    rw [List.getD_eq_getElem _ _ hlt] at hc
    rw [← hc.2]
    exact List.getElem_mem _
  · rfl

theorem dropCR_append_cr (l : GoString) : dropCR (l ++ [13]) = l := by
  unfold dropCR
  simp

theorem lit_newline : lit "\n" = [10] := by decide

theorem lit_crlf : lit "\r\n" = [13, 10] := by decide

theorem lit_cr : lit "\r" = [13] := by decide

theorem rawLines_ne_nil (text : GoString) : rawLines text ≠ [] :=
  List.splitOnP_ne_nil _ _

/-- The lines of two texts joined by a newline are the lines of the one followed
by the lines of the other. -/
theorem rawLines_append (a b : GoString) :
    rawLines (a ++ 10 :: b) = rawLines a ++ rawLines b := by
  induction a with
  | nil =>
    have := @rawLines_split [] b (by simp)
    simpa [rawLines] using this
  | cons x a ih =>
    unfold rawLines List.splitOn at ih ⊢
    rw [List.cons_append, List.splitOnP_cons, List.splitOnP_cons, ih]
    by_cases hx : (x == 10) = true
    · simp [hx]
    · simp only [hx, Bool.false_eq_true, if_false]
      cases h : List.splitOnP (fun x => x == 10) a with
      | nil => exact absurd h (List.splitOnP_ne_nil _ _)
      | cons l ls => simp [List.modifyHead]

theorem scannedLines_subset (M : Nat) (text : GoString) :
    ∀ l ∈ scannedLines M text, l ∈ textLines text := by
  intro l hl
  unfold scannedLines at hl
  unfold textLines
  obtain ⟨x, hx, rfl⟩ := List.mem_map.mp hl
  exact List.mem_map.mpr ⟨x, (List.takeWhile_sublist _).subset hx, rfl⟩

/-- Scanning stops at a first line of 64 KiB or more: nothing is extracted. -/
theorem ExtractImagesFromManifests_long_first {l rest : GoString} (h1 : 10 ∉ l)
    (h2 : MaxScanTokenSize ≤ l.length) :
    ExtractImagesFromManifests (l ++ 10 :: rest) = some [] := by
  have h3 : ¬ l.length < MaxScanTokenSize := by omega
  rw [ExtractImagesFromManifests_eq, scannedLines, rawLines_split h1]
  simp [List.takeWhile_cons, h3]

theorem not_mem_replicate_a (n : Nat) : 10 ∉ List.replicate n 97 := by
  intro h
  have := List.eq_of_mem_replicate h
  omega

/-- A qualifying line after a line of 64 KiB or more is a line of the text and
is not extracted. -/
theorem ExtractImagesFromManifests_after_long (big : GoString) (h1 : 10 ∉ big)
    (h2 : MaxScanTokenSize ≤ big.length) :
    imageOfLine (lit "image: x") = some (lit "x") ∧
      lit "image: x" ∈ textLines (big ++ lit "\nimage: x") ∧
      ExtractImagesFromManifests (big ++ lit "\nimage: x") = some [] := by
  have e : lit "\nimage: x" = 10 :: lit "image: x" := by decide
  refine ⟨by decide, ?_, ?_⟩
  · rw [e, textLines, rawLines_split h1]
    have : textLines (lit "image: x") = [lit "image: x"] := by decide
    rw [List.map_cons]
    exact List.mem_cons_of_mem _ (by rw [← textLines, this]; simp)
  · rw [e]
    exact ExtractImagesFromManifests_long_first h1 h2

theorem scannedLines_joinLines_lf {M : Nat} : ∀ (lines : List GoString), lines ≠ [] →
    (∀ l ∈ lines, 13 ∉ l ∧ 10 ∉ l ∧ l.length < M) →
    scannedLines M (joinLines [10] lines) = lines := by
  intro lines
  induction lines with
  | nil => intro h; exact absurd rfl h
  | cons l t ih =>
    intro _ h
    obtain ⟨h13, h10, hlen⟩ := h l (List.mem_cons_self _ _)
    cases t with
    | nil =>
      simp [joinLines, scannedLines, rawLines_single h10, List.takeWhile_cons, hlen,
        dropCR_of_not_mem h13]
    | cons l2 t2 =>
      have ih' := ih (by simp) (fun x hx => h x (List.mem_cons_of_mem _ hx))
      have e : joinLines [10] (l :: l2 :: t2) = l ++ 10 :: joinLines [10] (l2 :: t2) := by
        simp [joinLines]
      rw [e, scannedLines, rawLines_split h10]
      simp only [List.takeWhile_cons, hlen, decide_True, if_true, List.map_cons,
        dropCR_of_not_mem h13]
      rw [← scannedLines, ih']

theorem scannedLines_joinLines_crlf {M : Nat} : ∀ (lines : List GoString), lines ≠ [] →
    (∀ l ∈ lines, 13 ∉ l ∧ 10 ∉ l ∧ l.length + 1 < M) →
    scannedLines M (joinLines [13, 10] lines) = lines := by
  intro lines
  induction lines with
  | nil => intro h; exact absurd rfl h
  | cons l t ih =>
    intro _ h
    obtain ⟨h13, h10, hlen⟩ := h l (List.mem_cons_self _ _)
    cases t with
    | nil =>
      have hlen' : l.length < M := by omega
      simp [joinLines, scannedLines, rawLines_single h10, List.takeWhile_cons, hlen',
        dropCR_of_not_mem h13]
    | cons l2 t2 =>
      have ih' := ih (by simp) (fun x hx => h x (List.mem_cons_of_mem _ hx))
      have e : joinLines [13, 10] (l :: l2 :: t2) =
          (l ++ [13]) ++ 10 :: joinLines [13, 10] (l2 :: t2) := by
        simp [joinLines]
      have h10' : 10 ∉ l ++ [13] := by simp [h10]
      have hlen' : (l ++ [13]).length < M := by simpa using hlen
      rw [e, scannedLines, rawLines_split h10']
      simp only [List.takeWhile_cons, hlen', decide_True, if_true, List.map_cons,
        dropCR_append_cr]
      rw [← scannedLines, ih']

/-- A line of `MaxScanTokenSize - 1` bytes fits the buffer of the scanner with
its newline, but not with a carriage return and a newline: after such a line
the two line endings give different results. -/
theorem ExtractImagesFromManifests_crlf_boundary (big : GoString) (h1 : 10 ∉ big)
    (h13 : 13 ∉ big) (h2 : big.length + 1 = MaxScanTokenSize) :
    ExtractImagesFromManifests (joinLines (lit "\n") [big, lit "image: x"]) ≠
      ExtractImagesFromManifests (joinLines (lit "\r\n") [big, lit "image: x"]) := by
  have e : joinLines (lit "\n") [big, lit "image: x"] = big ++ 10 :: lit "image: x" := by
    simp [joinLines, lit_newline]
  have h4 : scannedLines MaxScanTokenSize (lit "image: x") = [lit "image: x"] := by decide
  have h5 : imageOfLine (lit "image: x") = some (lit "x") := by decide
  have h6 : big.length < MaxScanTokenSize := by omega
  have e' : joinLines (lit "\r\n") [big, lit "image: x"] =
      (big ++ [13]) ++ 10 :: lit "image: x" := by
    simp [joinLines, lit_crlf]
  rw [e', ExtractImagesFromManifests_long_first (by simp [h1]) (by simp; omega)]
  rw [e, ExtractImagesFromManifests_eq, scannedLines, rawLines_split h1]
  simp only [List.takeWhile_cons, h6, decide_True, if_true, List.map_cons,
    dropCR_of_not_mem h13]
  rw [← scannedLines, h4]
  cases h7 : imageOfLine big <;> simp [List.filterMap_cons, h5, h7]

/-- The boundary on a concrete text: 65535 letters `a`, then `image: x`. -/
theorem ExtractImagesFromManifests_crlf_limit :
    ExtractImagesFromManifests (joinLines (lit "\n") [List.replicate 65535 97, lit "image: x"]) ≠
      ExtractImagesFromManifests
        (joinLines (lit "\r\n") [List.replicate 65535 97, lit "image: x"]) :=
  ExtractImagesFromManifests_crlf_boundary _ (not_mem_replicate_a _)
    (by intro h; have := List.eq_of_mem_replicate h; omega)
    (by rw [List.length_replicate]; decide)

/-- A line of letters `a` is no `image:` line. -/
theorem imageOfLine_letters (big : GoString) (h : ∀ x ∈ big, x = 97) : imageOfLine big = none := by
  cases big with
  | nil => decide
  | cons c t =>
    have hc : c = 97 := h c (List.mem_cons_self _ _)
    subst hc
    have hlast : (97 :: t).getD t.length 0 = 97 := by
      rw [List.getD_eq_getElem?_getD, List.getElem?_eq_getElem (by simp)]
      exact h _ (List.getElem_mem _)
    have e : TrimSpace (97 :: t) = 97 :: t := by
      rw [TrimSpace, if_neg (by decide), if_neg (by decide), List.length_cons, trimSpaceStop]
      simp only [hlast]
      rw [if_neg (by decide), if_neg (by decide)]
      exact List.take_of_length_le (by simp)
    unfold imageOfLine
    simp only [e]
    rw [if_neg]
    simp [HasPrefix, lit_image]

/-- A line of 65535 bytes fits the buffer of the scanner with a newline
behind it and not with a carriage return and a newline: the text has the lines
`big` and `image: x`, both below 64 KiB, but the scan ends at the first. -/
theorem ExtractImagesFromManifests_crlf_gap (big : GoString) (h : ∀ x ∈ big, x = 97)
    (h2 : big.length + 1 = MaxScanTokenSize) :
    textLines (big ++ lit "\r\nimage: x") = [big, lit "image: x"] ∧
      specExtract (big ++ lit "\r\nimage: x") = [lit "x"] ∧
      ExtractImagesFromManifests (big ++ lit "\r\nimage: x") = some [] := by
  have h10 : 10 ∉ big := fun hm => by have := h 10 hm; omega
  have e : big ++ lit "\r\nimage: x" = (big ++ [13]) ++ 10 :: lit "image: x" := by
    have : lit "\r\nimage: x" = 13 :: 10 :: lit "image: x" := by decide
    rw [this]; simp
  have h10' : 10 ∉ big ++ [13] := by simp [h10]
  have ht : textLines (big ++ lit "\r\nimage: x") = [big, lit "image: x"] := by
    rw [e, textLines, rawLines_split h10', List.map_cons, dropCR_append_cr, ← textLines]
    have : textLines (lit "image: x") = [lit "image: x"] := by decide
    rw [this]
  refine ⟨ht, ?_, ?_⟩
  · rw [specExtract, ht]
    have h5 : imageOfLine (lit "image: x") = some (lit "x") := by decide
    simp [List.filterMap_cons, imageOfLine_letters big h, h5]
  · rw [e]
    exact ExtractImagesFromManifests_long_first h10' (by simp; omega)

/-- The same line as the end of a first document: nothing is extracted from the
document, nor from the document followed by a second one. -/
theorem ExtractImagesFromManifests_crlf_gap_append (big : GoString) (h : ∀ x ∈ big, x = 97)
    (h2 : big.length + 1 = MaxScanTokenSize) :
    textLines (big ++ lit "\r\n") = [big, []] ∧
      ExtractImagesFromManifests (big ++ lit "\r\n") = some [] ∧
      ExtractImagesFromManifests (big ++ lit "\r\n" ++ lit "\n" ++ lit "image: x") = some [] := by
  have h10 : 10 ∉ big := fun hm => by have := h 10 hm; omega
  have h10' : 10 ∉ big ++ [13] := by simp [h10]
  have e : big ++ lit "\r\n" = (big ++ [13]) ++ 10 :: [] := by
    rw [lit_crlf]; simp
  have e2 : big ++ lit "\r\n" ++ lit "\n" ++ lit "image: x" =
      (big ++ [13]) ++ 10 :: (10 :: lit "image: x") := by
    rw [lit_crlf, lit_newline]; simp
  refine ⟨?_, ?_, ?_⟩
  · rw [e, textLines, rawLines_split h10', List.map_cons, dropCR_append_cr, ← textLines]
    have : textLines [] = [[]] := by decide
    rw [this]
  · rw [e]
    exact ExtractImagesFromManifests_long_first h10' (by simp; omega)
  · rw [e2]
    exact ExtractImagesFromManifests_long_first h10' (by simp; omega)

/-- Without a quote character in front, `Unquote` fails and the name handed to
the container engine is empty. -/
theorem engineImageName_of_not_quoted (r : GoString)
    (h : r.getD 0 0 ≠ 34 ∧ r.getD 0 0 ≠ 39 ∧ r.getD 0 0 ≠ 96) : engineImageName r = [] := by
  unfold engineImageName Unquote unquote
  obtain ⟨h1, h2, h3⟩ := h
  by_cases hl : r.length < 2
  · simp [hl]
  · simp only [hl, if_false]
    cases IndexByte (List.drop 1 r) (r.getD 0 0) with
    | none => rfl
    | some e => simp only [h1, h2, h3, if_false, or_self]

theorem wrapInt64_add (x y : Int) : wrapInt64 (wrapInt64 x + y) = wrapInt64 (x + y) := by
  unfold wrapInt64
  congr 1
  omega

theorem wrapInt64_of_range {x : Int} (h1 : -2 ^ 63 ≤ x) (h2 : x < 2 ^ 63) : wrapInt64 x = x := by
  unfold wrapInt64
  omega

theorem foldl_wrapInt64 (history : List HistoryResponseItem) (acc : Int) :
    history.foldl (fun total layer => wrapInt64 (total + layer.Size)) (wrapInt64 acc) =
      wrapInt64 (acc + (history.map (·.Size)).sum) := by
  induction history generalizing acc with
  | nil => simp
  | cons l t ih =>
    rw [List.foldl_cons, wrapInt64_add, ih]
    simp [Int.add_assoc]

theorem LayersSizeImages_info_TotalSize (nombreImagen : GoString)
    (history : List HistoryResponseItem) :
    (LayersSizeImages_info nombreImagen history).TotalSize =
      wrapInt64 ((history.map (·.Size)).sum) := by
  have h0 : wrapInt64 0 = 0 := by decide
  have := foldl_wrapInt64 history 0
  rw [h0] at this
  simpa [LayersSizeImages_info] using this

/-! ## Facts about UTF-8 decoding and `strings.TrimSpace` -/

theorem first_of_large {b : Nat} (h : 0xF4 < b) : first b = 0xF1 := by
  rw [first, if_neg (show ¬ b < 0x80 by omega), if_neg (show ¬ b < 0xC2 by omega),
    if_neg (show ¬ b < 0xE0 by omega), if_neg (show ¬ b = 0xE0 by omega),
    if_neg (show ¬ b < 0xED by omega), if_neg (show ¬ b = 0xED by omega),
    if_neg (show ¬ b < 0xF0 by omega), if_neg (show ¬ b = 0xF0 by omega),
    if_neg (show ¬ b < 0xF4 by omega), if_neg (show ¬ b = 0xF4 by omega)]

/-- The classes of first bytes in the table `first`: ASCII, invalid, or the
first byte of an encoding of two to four bytes. -/
theorem first_cases (b : Nat) :
    (b < 0x80 ∧ first b = 0xF0) ∨ (0x80 ≤ b ∧ first b = 0xF1) ∨
      (0xC2 ≤ b ∧ b ≤ 0xF4 ∧
        (first b = 0x02 ∨ first b = 0x13 ∨ first b = 0x03 ∨ first b = 0x23 ∨ first b = 0x34 ∨
          first b = 0x04 ∨ first b = 0x44)) := by
  by_cases hb : b < 256
  · revert b
    decide!
  · exact Or.inr (Or.inl ⟨by omega, first_of_large (by omega)⟩)

theorem RuneStart_of_lead {b : Nat} (h : b < 0x80 ∨ (0xC2 ≤ b ∧ b ≤ 0xF4)) :
    RuneStart b = true := by
  have : ∀ n, n < 256 → (n < 0x80 ∨ (0xC2 ≤ n ∧ n ≤ 0xF4)) → RuneStart n = true := by decide!
  exact this b (by omega) h

theorem not_RuneStart_of_cont {b : Nat} (h : 0x80 ≤ b ∧ b ≤ 0xBF) : RuneStart b = false := by
  have : ∀ n, n < 256 → (0x80 ≤ n ∧ n ≤ 0xBF) → RuneStart n = false := by decide!
  exact this b (by omega) h

theorem DR_cons_lead (s0 : Nat) (t : GoString) (hx : first s0 < 0xF0) :
    DecodeRuneInString (s0 :: t) =
      decodeMulti (first s0 &&& 7) (acceptRanges (first s0 >>> 4)) s0 t := by
  rw [DecodeRuneInString]
  simp only []
  rw [if_neg (by omega)]
  rfl

theorem DR_cons_ascii (s0 : Nat) (t : GoString) (hx : first s0 = 0xF0) :
    DecodeRuneInString (s0 :: t) = (s0, 1) := by
  rw [DecodeRuneInString]
  simp only [hx]
  rfl

theorem DR_cons_invalid (s0 : Nat) (t : GoString) (hx : first s0 = 0xF1) :
    DecodeRuneInString (s0 :: t) = (RuneError, 1) := by
  rw [DecodeRuneInString]
  simp only [hx]
  rfl

theorem decodeMulti_two (acc : Nat × Nat) (s0 : Nat) (t : GoString) (h3 : 0x80 ≤ acc.1)
    (h4 : acc.2 ≤ 0xBF) :
    decodeMulti 2 acc s0 t = (RuneError, 1) ∨
      ∃ r, decodeMulti 2 acc s0 t = (r, 2) ∧ 2 ≤ t.length + 1 ∧
        (∀ i, i + 1 < 2 → 0x80 ≤ t.getD i 0 ∧ t.getD i 0 ≤ 0xBF) ∧
        (∀ t' : GoString, t'.take (2 - 1) = t.take (2 - 1) → decodeMulti 2 acc s0 t' = (r, 2)) := by
  cases t with
  | nil => left; rfl
  | cons s1 t1 =>
    by_cases hb : s1 < acc.1 ∨ acc.2 < s1
    · left
      simp [decodeMulti, hb]
    · right
      refine ⟨((s0 &&& 0x1F) <<< 6) ||| (s1 &&& 0x3F), ?_, by simp, ?_, ?_⟩
      · simp [decodeMulti, hb]
      · intro i hi
        have : i = 0 := by omega
        subst this
        simp only [List.getD_cons_zero]
        omega
      · intro t' ht'
        cases t' with
        | nil => simp at ht'
        | cons s1' t1' =>
          simp at ht'
          subst ht'
          simp [decodeMulti, hb]

theorem decodeMulti_three (acc : Nat × Nat) (s0 : Nat) (t : GoString) (h3 : 0x80 ≤ acc.1)
    (h4 : acc.2 ≤ 0xBF) :
    decodeMulti 3 acc s0 t = (RuneError, 1) ∨
      ∃ r, decodeMulti 3 acc s0 t = (r, 3) ∧ 3 ≤ t.length + 1 ∧
        (∀ i, i + 1 < 3 → 0x80 ≤ t.getD i 0 ∧ t.getD i 0 ≤ 0xBF) ∧
        (∀ t' : GoString, t'.take (3 - 1) = t.take (3 - 1) → decodeMulti 3 acc s0 t' = (r, 3)) := by
  match t with
  | [] => left; rfl
  | [s1] => left; simp [decodeMulti]
  | s1 :: s2 :: t2 =>
    by_cases hb : s1 < acc.1 ∨ acc.2 < s1
    · left
      simp [decodeMulti, hb]
    by_cases hc : s2 < 0x80 ∨ 0xBF < s2
    · left
      simp [decodeMulti, hb, hc]
    right
    refine ⟨((s0 &&& 0x0F) <<< 12) ||| ((s1 &&& 0x3F) <<< 6) ||| (s2 &&& 0x3F), ?_, by simp, ?_, ?_⟩
    · simp [decodeMulti, hb, hc]
    · intro i hi
      have : i = 0 ∨ i = 1 := by omega
      rcases this with rfl | rfl
      · simp only [List.getD_cons_zero]; omega
      · simp only [List.getD_cons_succ, List.getD_cons_zero]; omega
    · intro t' ht'
      match t', ht' with
      | [], ht' => simp at ht'
      | [_], ht' => simp at ht'
      | s1' :: s2' :: t2', ht' =>
        simp at ht'
        obtain ⟨rfl, rfl⟩ := ht'
        simp [decodeMulti, hb, hc]

theorem decodeMulti_four (acc : Nat × Nat) (s0 : Nat) (t : GoString) (h3 : 0x80 ≤ acc.1)
    (h4 : acc.2 ≤ 0xBF) :
    decodeMulti 4 acc s0 t = (RuneError, 1) ∨
      ∃ r, decodeMulti 4 acc s0 t = (r, 4) ∧ 4 ≤ t.length + 1 ∧
        (∀ i, i + 1 < 4 → 0x80 ≤ t.getD i 0 ∧ t.getD i 0 ≤ 0xBF) ∧
        (∀ t' : GoString, t'.take (4 - 1) = t.take (4 - 1) → decodeMulti 4 acc s0 t' = (r, 4)) := by
  match t with
  | [] => left; rfl
  | [s1] => left; simp [decodeMulti]
  | [s1, s2] => left; simp [decodeMulti]
  | s1 :: s2 :: s3 :: t3 =>
    by_cases hb : s1 < acc.1 ∨ acc.2 < s1
    · left
      simp [decodeMulti, hb]
    by_cases hc : s2 < 0x80 ∨ 0xBF < s2
    · left
      simp [decodeMulti, hb, hc]
    by_cases hd : s3 < 0x80 ∨ 0xBF < s3
    · left
      simp [decodeMulti, hb, hc, hd]
    right
    refine ⟨((s0 &&& 0x07) <<< 18) ||| ((s1 &&& 0x3F) <<< 12) ||| ((s2 &&& 0x3F) <<< 6) |||
      (s3 &&& 0x3F), ?_, by simp, ?_, ?_⟩
    · simp [decodeMulti, hb, hc, hd]
    · intro i hi
      have : i = 0 ∨ i = 1 ∨ i = 2 := by omega
      rcases this with rfl | rfl | rfl
      · simp only [List.getD_cons_zero]; omega
      · simp only [List.getD_cons_succ, List.getD_cons_zero]; omega
      · simp only [List.getD_cons_succ, List.getD_cons_zero]; omega
    · intro t' ht'
      match t', ht' with
      | [], ht' => simp at ht'
      | [_], ht' => simp at ht'
      | [_, _], ht' => simp at ht'
      | s1' :: s2' :: s3' :: t3', ht' =>
        simp at ht'
        obtain ⟨rfl, rfl, rfl⟩ := ht'
        simp [decodeMulti, hb, hc, hd]

/-- What `DecodeRuneInString` does on a non-empty string: an ASCII byte is
its own rune; an invalid or truncated encoding gives `(RuneError, 1)`; otherwise
the first byte starts an encoding of `n ≥ 2` bytes, the following `n - 1` bytes
are continuation bytes, and the result depends on these `n` bytes only. -/
theorem DR_cases (s0 : Nat) (t : GoString) :
    (s0 < 0x80 ∧ DecodeRuneInString (s0 :: t) = (s0, 1)) ∨
      (0x80 ≤ s0 ∧ DecodeRuneInString (s0 :: t) = (RuneError, 1)) ∨
      (0xC2 ≤ s0 ∧ s0 ≤ 0xF4 ∧ ∃ n r, 2 ≤ n ∧ DecodeRuneInString (s0 :: t) = (r, n) ∧
        n ≤ t.length + 1 ∧
        (∀ i, i + 1 < n → 0x80 ≤ t.getD i 0 ∧ t.getD i 0 ≤ 0xBF) ∧
        (∀ t' : GoString, t'.take (n - 1) = t.take (n - 1) →
          DecodeRuneInString (s0 :: t') = (r, n))) := by
  rcases first_cases s0 with ⟨h1, hx⟩ | ⟨h1, hx⟩ | ⟨h1, h2, hx⟩
  · exact Or.inl ⟨h1, DR_cons_ascii s0 t hx⟩
  · exact Or.inr (Or.inl ⟨h1, DR_cons_invalid s0 t hx⟩)
  · have key : ∀ (sz : Nat) (acc : Nat × Nat), 2 ≤ sz → first s0 < 0xF0 →
        first s0 &&& 7 = sz → acceptRanges (first s0 >>> 4) = acc →
        (decodeMulti sz acc s0 t = (RuneError, 1) ∨
          ∃ r, decodeMulti sz acc s0 t = (r, sz) ∧ sz ≤ t.length + 1 ∧
            (∀ i, i + 1 < sz → 0x80 ≤ t.getD i 0 ∧ t.getD i 0 ≤ 0xBF) ∧
            (∀ t' : GoString, t'.take (sz - 1) = t.take (sz - 1) →
              decodeMulti sz acc s0 t' = (r, sz))) →
        (0x80 ≤ s0 ∧ DecodeRuneInString (s0 :: t) = (RuneError, 1)) ∨
        (0xC2 ≤ s0 ∧ s0 ≤ 0xF4 ∧ ∃ n r, 2 ≤ n ∧ DecodeRuneInString (s0 :: t) = (r, n) ∧
          n ≤ t.length + 1 ∧
          (∀ i, i + 1 < n → 0x80 ≤ t.getD i 0 ∧ t.getD i 0 ≤ 0xBF) ∧
          (∀ t' : GoString, t'.take (n - 1) = t.take (n - 1) →
            DecodeRuneInString (s0 :: t') = (r, n))) := by
      intro sz acc hsz hlt e1 e2 hd
      have e : ∀ u : GoString, DecodeRuneInString (s0 :: u) = decodeMulti sz acc s0 u := by
        intro u
        rw [DR_cons_lead s0 u hlt, e1, e2]
      rcases hd with hd | ⟨r, hd1, hd2, hd3, hd4⟩
      · exact Or.inl ⟨by omega, by rw [e, hd]⟩
      · exact Or.inr ⟨h1, h2, sz, r, hsz, by rw [e, hd1], hd2, hd3,
          fun t' ht' => by rw [e, hd4 t' ht']⟩
    right
    rcases hx with hx | hx | hx | hx | hx | hx | hx
    · exact key 2 (0x80, 0xBF) (by omega) (by omega) (by rw [hx]; rfl) (by rw [hx]; rfl)
        (decodeMulti_two _ s0 t (by simp) (by simp))
    · exact key 3 (0xA0, 0xBF) (by omega) (by omega) (by rw [hx]; rfl) (by rw [hx]; rfl)
        (decodeMulti_three _ s0 t (by simp) (by simp))
    · exact key 3 (0x80, 0xBF) (by omega) (by omega) (by rw [hx]; rfl) (by rw [hx]; rfl)
        (decodeMulti_three _ s0 t (by simp) (by simp))
    · exact key 3 (0x80, 0x9F) (by omega) (by omega) (by rw [hx]; rfl) (by rw [hx]; rfl)
        (decodeMulti_three _ s0 t (by simp) (by simp))
    · exact key 4 (0x90, 0xBF) (by omega) (by omega) (by rw [hx]; rfl) (by rw [hx]; rfl)
        (decodeMulti_four _ s0 t (by simp) (by simp))
    · exact key 4 (0x80, 0xBF) (by omega) (by omega) (by rw [hx]; rfl) (by rw [hx]; rfl)
        (decodeMulti_four _ s0 t (by simp) (by simp))
    · exact key 4 (0x80, 0x8F) (by omega) (by omega) (by rw [hx]; rfl) (by rw [hx]; rfl)
        (decodeMulti_four _ s0 t (by simp) (by simp))

theorem IsSpace_RuneError : IsSpace RuneError = false := by decide

theorem DR_width {t : GoString} (h : t ≠ []) :
    1 ≤ (DecodeRuneInString t).2 ∧ (DecodeRuneInString t).2 ≤ t.length := by
  cases t with
  | nil => exact absurd rfl h
  | cons s0 t =>
    rcases DR_cases s0 t with ⟨-, e⟩ | ⟨-, e⟩ | ⟨-, -, n, r, hn, e, hl, -, -⟩
    · rw [e]; simp
    · rw [e]; simp
    · rw [e]; simp only [List.length_cons]; omega

/-- A string that decodes to a space starts with a byte that can start a rune. -/
theorem DR_space_start {t : GoString} (h : IsSpace (DecodeRuneInString t).1 = true) :
    t ≠ [] ∧ RuneStart (t.getD 0 0) = true := by
  cases t with
  | nil => simp [DecodeRuneInString, IsSpace_RuneError] at h
  | cons s0 t =>
    refine ⟨by simp, ?_⟩
    simp only [List.getD_cons_zero]
    rcases DR_cases s0 t with ⟨h1, -⟩ | ⟨-, e⟩ | ⟨h1, h2, -⟩
    · exact RuneStart_of_lead (Or.inl h1)
    · rw [e] at h; simp [IsSpace_RuneError] at h
    · exact RuneStart_of_lead (Or.inr ⟨h1, h2⟩)

/-- A non-ASCII byte followed by no continuation byte is a rune of width 1. -/
theorem DR_width_one {b : Nat} {rest : GoString} (hb : 0x80 ≤ b)
    (h : rest = [] ∨ RuneStart (rest.getD 0 0) = true) :
    (DecodeRuneInString (b :: rest)).2 = 1 := by
  rcases DR_cases b rest with ⟨h1, -⟩ | ⟨-, e⟩ | ⟨-, -, n, r, hn, e, hl, hc, -⟩
  · omega
  · rw [e]
  · exfalso
    have := hc 0 (by omega)
    rcases h with h | h
    · subst h; simp at hl; omega
    · rw [not_RuneStart_of_cont this] at h
      exact Bool.false_ne_true h

/-- A rune of width two or more starts with a non-ASCII byte. -/
theorem DR_wide_start {t : GoString} (h : 2 ≤ (DecodeRuneInString t).2) : 0x80 ≤ t.getD 0 0 := by
  cases t with
  | nil => simp [DecodeRuneInString] at h
  | cons s0 t =>
    simp only [List.getD_cons_zero]
    rcases DR_cases s0 t with ⟨-, e⟩ | ⟨h1, -⟩ | ⟨h1, -, -⟩
    · rw [e] at h; simp at h
    · exact h1
    · omega

/-- A decoding that uses all `n ≥ 2` bytes of a prefix is the decoding of the
whole string. -/
theorem DR_of_take {t : GoString} {n : Nat} (hn : 2 ≤ n)
    (h : (DecodeRuneInString (t.take n)).2 = n) :
    DecodeRuneInString t = DecodeRuneInString (t.take n) := by
  cases t with
  | nil => simp
  | cons s0 t =>
    obtain ⟨m, rfl⟩ : ∃ m, n = m + 1 := ⟨n - 1, by omega⟩
    rw [List.take_succ_cons] at h ⊢
    rcases DR_cases s0 (t.take m) with ⟨-, e⟩ | ⟨-, e⟩ | ⟨-, -, n', r, hn', e, hl, -, hext⟩
    · rw [e] at h; simp at h; omega
    · rw [e] at h; simp at h; omega
    · rw [e] at h
      simp only at h
      subst h
      rw [e]
      apply hext
      simp

/-- Cutting a string short keeps its first rune or makes it invalid. -/
theorem DR_take (t : GoString) {k : Nat} (hk : 1 ≤ k) :
    DecodeRuneInString (t.take k) = DecodeRuneInString t ∨
      DecodeRuneInString (t.take k) = (RuneError, 1) := by
  cases t with
  | nil => simp
  | cons s0 t =>
    obtain ⟨m, rfl⟩ : ∃ m, k = m + 1 := ⟨k - 1, by omega⟩
    rw [List.take_succ_cons]
    rcases DR_cases s0 (t.take m) with ⟨h1, e⟩ | ⟨-, e⟩ | ⟨-, -, n', r, hn', e, hl, -, hext⟩
    · left
      rw [e]
      rcases DR_cases s0 t with ⟨-, e'⟩ | ⟨h2, -⟩ | ⟨h2, -, -⟩
      · rw [e']
      · omega
      · omega
    · exact Or.inr e
    · left
      rw [e, hext t]
      rw [List.take_take]
      congr 1
      simp only [List.length_take] at hl
      omega

theorem lastRuneStart_le (s : GoString) (lim : Nat) :
    ∀ (steps start i : Nat), lastRuneStart s lim steps start = some i → i ≤ start := by
  intro steps
  induction steps with
  | zero => intro start i h; simp [lastRuneStart] at h
  | succ n ih =>
    intro start i h
    rw [lastRuneStart] at h
    split_ifs at h with h1 h2 h3
    · simp at h; omega
    · have := ih _ _ h; omega

theorem DLR_eq {s : GoString} (hs : s ≠ []) :
    (s.getD (s.length - 1) 0 < 0x80 ∧
        DecodeLastRuneInString s = (s.getD (s.length - 1) 0, 1)) ∨
      (0x80 ≤ s.getD (s.length - 1) 0 ∧ ∃ start, start < s.length ∧
        DecodeLastRuneInString s =
          if start + (DecodeRuneInString (s.drop start)).2 ≠ s.length then (RuneError, 1)
          else DecodeRuneInString (s.drop start)) := by
  have hlen : 0 < s.length := List.length_pos.mpr hs
  by_cases hr : s.getD (s.length - 1) 0 < 0x80
  · left
    refine ⟨hr, ?_⟩
    unfold DecodeLastRuneInString
    simp only [Nat.ne_of_gt hlen, if_false, RuneSelf, hr, if_true]
  · right
    refine ⟨by omega, ?_⟩
    unfold DecodeLastRuneInString
    simp only [Nat.ne_of_gt hlen, if_false, RuneSelf, hr, UTFMax]
    refine ⟨_, ?_, rfl⟩
    split_ifs with h0
    · exact hlen
    · split
      · rename_i i hi
        have := lastRuneStart_le _ _ _ _ _ hi
        omega
      · have : s.length - 4 - 1 < s.length := by omega
        exact this

/-- What `DecodeLastRuneInString` does on a non-empty string: it returns a rune
of width 1, the last byte itself when that is ASCII and no space otherwise, or
the decoding of the last `n ≥ 2` bytes. -/
theorem DLR_cases {s : GoString} (hs : s ≠ []) :
    ((DecodeLastRuneInString s).2 = 1 ∧
        (s.getD (s.length - 1) 0 < 0x80 →
          (DecodeLastRuneInString s).1 = s.getD (s.length - 1) 0) ∧
        (0x80 ≤ s.getD (s.length - 1) 0 → IsSpace (DecodeLastRuneInString s).1 = false)) ∨
      (2 ≤ (DecodeLastRuneInString s).2 ∧ (DecodeLastRuneInString s).2 ≤ s.length ∧
        DecodeRuneInString (s.drop (s.length - (DecodeLastRuneInString s).2)) =
          DecodeLastRuneInString s) := by
  have hlen : 0 < s.length := List.length_pos.mpr hs
  rcases DLR_eq hs with ⟨hr, e⟩ | ⟨hr, start, hstart, e⟩
  · left
    rw [e]
    exact ⟨rfl, fun _ => rfl, fun h => by omega⟩
  · have hne : s.drop start ≠ [] := by
      intro h
      have := congrArg List.length h
      simp only [List.length_drop, List.length_nil] at this
      omega
    obtain ⟨w1, w2⟩ := DR_width hne
    simp only [List.length_drop] at w2
    by_cases hfit : start + (DecodeRuneInString (s.drop start)).2 = s.length
    · rw [if_neg (by simpa using hfit)] at e
      by_cases hw : (DecodeRuneInString (s.drop start)).2 = 1
      · left
        rw [e]
        refine ⟨hw, fun h => by omega, fun _ => ?_⟩
        have hs1 : start = s.length - 1 := by omega
        have hb : s.getD start 0 = s.getD (s.length - 1) 0 := by rw [hs1]
        have hd : s.drop start = s.getD (s.length - 1) 0 :: s.drop (start + 1) := by
          rw [← hb, List.getD_eq_getElem _ _ hstart]
          exact List.drop_eq_getElem_cons hstart
        rcases DR_cases (s.getD (s.length - 1) 0) (s.drop (start + 1)) with
          ⟨h1, -⟩ | ⟨-, e'⟩ | ⟨-, -, n, r, hn, e', -, -, -⟩
        · omega
        · rw [hd, e']; exact IsSpace_RuneError
        · rw [hd, e'] at hw
          simp at hw
          omega
      · right
        rw [e]
        refine ⟨by omega, by omega, ?_⟩
        congr 2
        omega
    · left
      rw [if_pos (by simpa using hfit)] at e
      rw [e]
      exact ⟨rfl, fun h => by omega, fun _ => IsSpace_RuneError⟩

theorem DLR_width {s : GoString} (hs : s ≠ []) :
    1 ≤ (DecodeLastRuneInString s).2 ∧ (DecodeLastRuneInString s).2 ≤ s.length := by
  have hlen : 0 < s.length := List.length_pos.mpr hs
  rcases DLR_cases hs with ⟨h, -⟩ | ⟨h1, h2, -⟩ <;> omega

/-- A string whose last rune is a space: that rune starts at a byte that can
start a rune. -/
theorem DLR_space_start {s : GoString} (h : IsSpace (DecodeLastRuneInString s).1 = true) :
    s ≠ [] ∧ RuneStart (s.getD (s.length - (DecodeLastRuneInString s).2) 0) = true := by
  have hs : s ≠ [] := by
    rintro rfl
    simp [DecodeLastRuneInString, IsSpace_RuneError] at h
  refine ⟨hs, ?_⟩
  rcases DLR_cases hs with ⟨h1, h2, h3⟩ | ⟨h1, h2, h3⟩
  · rw [h1]
    by_cases hr : s.getD (s.length - 1) 0 < 0x80
    · exact RuneStart_of_lead (Or.inl hr)
    · rw [h3 (by omega)] at h
      exact absurd h Bool.false_ne_true
  · rw [← h3] at h
    have := (DR_space_start h).2
    rwa [List.getD_eq_getElem?_getD, List.getElem?_drop, Nat.add_zero,
      ← List.getD_eq_getElem?_getD] at this

/-- The backward loop of `lastIndexFunc` stops after a rune that is no space;
the byte after that rune, if any, can start a rune. -/
theorem lastIndexFuncLoop_spec (v : GoString) :
    ∀ (fuel i p : Nat), i ≤ v.length →
      (v.drop i = [] ∨ RuneStart ((v.drop i).getD 0 0) = true) →
      lastIndexFuncLoop v IsSpace false fuel i = some p →
      ∃ j, 1 ≤ j ∧ j ≤ v.length ∧
        (v.drop j = [] ∨ RuneStart ((v.drop j).getD 0 0) = true) ∧
        IsSpace (DecodeLastRuneInString (v.take j)).1 = false ∧
        p = j - (DecodeLastRuneInString (v.take j)).2 := by
  intro fuel
  induction fuel with
  | zero => intro i p _ _ h; simp [lastIndexFuncLoop] at h
  | succ fuel ih =>
    intro i p hi hgood h
    rw [lastIndexFuncLoop] at h
    by_cases h0 : i = 0
    · simp [h0] at h
    · simp only [h0, if_false] at h
      by_cases hsp : IsSpace (DecodeLastRuneInString (v.take i)).1 = true
      · simp only [hsp, beq_iff_eq, Bool.true_eq_false, if_false] at h
        obtain ⟨hne, hst⟩ := DLR_space_start hsp
        obtain ⟨w1, w2⟩ := DLR_width hne
        simp only [List.length_take, Nat.min_eq_left hi] at hst w2
        apply ih _ p (by omega) _ h
        right
        rw [List.getD_eq_getElem?_getD, List.getElem?_drop, Nat.add_zero,
          ← List.getD_eq_getElem?_getD]
        rw [List.getD_eq_getElem?_getD, List.getElem?_take_of_lt (by omega),
          ← List.getD_eq_getElem?_getD] at hst
        exact hst
      · have hsp' : IsSpace (DecodeLastRuneInString (v.take i)).1 = false := by
          simpa using hsp
        simp only [hsp', beq_self_eq_true, if_true, Option.some.injEq] at h
        exact ⟨i, by omega, hi, hgood, hsp', h.symm⟩

/-- The result of `TrimRightFunc` is empty or a prefix of the string that ends
with a rune that is no space. -/
theorem TrimRightFunc_eq (v : GoString) :
    TrimRightFunc v IsSpace = [] ∨
      ∃ j, 1 ≤ j ∧ j ≤ v.length ∧ TrimRightFunc v IsSpace = v.take j ∧
        IsSpace (DecodeLastRuneInString (v.take j)).1 = false := by
  unfold TrimRightFunc lastIndexFunc
  cases h : lastIndexFuncLoop v IsSpace false v.length v.length with
  | none => left; simp
  | some p =>
    right
    obtain ⟨j, hj1, hj2, hgood, hsp, hp⟩ :=
      lastIndexFuncLoop_spec v _ _ p (Nat.le_refl _) (Or.inl (by simp)) h
    refine ⟨j, hj1, hj2, ?_, hsp⟩
    have hne : v.take j ≠ [] := by
      intro e
      have := congrArg List.length e
      simp only [List.length_take, List.length_nil] at this
      omega
    have hlen : (v.take j).length = j := by simp [List.length_take, Nat.min_eq_left hj2]
    simp only
    rcases DLR_cases hne with ⟨h1, -, -⟩ | ⟨h1, h2, h3⟩
    · -- the last rune has width 1
      rw [h1] at hp
      obtain rfl : j = p + 1 := by omega
      have hdrop : v.drop p = v.getD p 0 :: v.drop (p + 1) := by
        rw [List.getD_eq_getElem _ _ (by omega)]
        exact List.drop_eq_getElem_cons (by omega)
      split_ifs with hb
      · rw [hdrop, DR_width_one hb hgood]
      · rfl
    · -- the last rune has width two or more
      rw [hlen] at h2 h3
      rw [← hp] at h3
      have hpj : p + (DecodeLastRuneInString (v.take j)).2 = j := by omega
      have e1 : (v.take j).drop p = (v.drop p).take (DecodeLastRuneInString (v.take j)).2 := by
        rw [List.drop_take]
        congr 1
        omega
      rw [e1] at h3
      have hw : (DecodeRuneInString
          ((v.drop p).take (DecodeLastRuneInString (v.take j)).2)).2 =
          (DecodeLastRuneInString (v.take j)).2 := by rw [h3]
      have e2 := DR_of_take h1 hw
      have hwide : 2 ≤ (DecodeRuneInString (v.drop p)).2 := by rw [e2, hw]; exact h1
      have hb := DR_wide_start hwide
      rw [List.getD_eq_getElem?_getD, List.getElem?_drop, Nat.add_zero,
        ← List.getD_eq_getElem?_getD] at hb
      have hb' : v.getD p 0 ≥ RuneSelf := hb
      rw [if_pos hb', e2, hw, hpj]

theorem hasTrailingSpace_TrimRightFunc (v : GoString) :
    hasTrailingSpace (TrimRightFunc v IsSpace) = false := by
  rcases TrimRightFunc_eq v with h | ⟨j, -, -, h, hsp⟩
  · rw [h]; decide
  · rw [h]; exact hsp

theorem hasLeadingSpace_take {v : GoString} (h : hasLeadingSpace v = false) (k : Nat) :
    hasLeadingSpace (v.take k) = false := by
  unfold hasLeadingSpace at h ⊢
  by_cases hk : k = 0
  · subst hk
    simp [DecodeRuneInString, IsSpace_RuneError]
  · rcases DR_take v (show 1 ≤ k by omega) with e | e
    · rw [e]; exact h
    · rw [e]; exact IsSpace_RuneError

theorem hasLeadingSpace_TrimRightFunc {v : GoString} (h : hasLeadingSpace v = false) :
    hasLeadingSpace (TrimRightFunc v IsSpace) = false := by
  rcases TrimRightFunc_eq v with e | ⟨j, -, -, e, -⟩
  · rw [e]; decide
  · rw [e]; exact hasLeadingSpace_take h j

/-- The forward loop of `indexFunc` stops in front of a rune that is no space. -/
theorem indexFuncLoop_spec :
    ∀ (fuel i p : Nat) (rest : GoString),
      indexFuncLoop IsSpace false fuel i rest = some p →
      ∃ k, p = i + k ∧ IsSpace (DecodeRuneInString (rest.drop k)).1 = false := by
  intro fuel
  induction fuel with
  | zero => intro i p rest h; simp [indexFuncLoop] at h
  | succ fuel ih =>
    intro i p rest h
    cases rest with
    | nil => simp [indexFuncLoop] at h
    | cons c t =>
      rw [indexFuncLoop] at h
      by_cases hsp : IsSpace (DecodeRuneInString (c :: t)).1 = true
      · simp only [hsp, beq_iff_eq, Bool.true_eq_false, if_false] at h
        obtain ⟨k, hk, hk'⟩ := ih _ _ _ h
        refine ⟨(DecodeRuneInString (c :: t)).2 + k, by omega, ?_⟩
        rw [← List.drop_drop]
        exact hk'
      · have hsp' : IsSpace (DecodeRuneInString (c :: t)).1 = false := by simpa using hsp
        simp only [hsp', beq_self_eq_true, if_true, Option.some.injEq] at h
        exact ⟨0, by omega, by simpa using hsp'⟩

theorem hasLeadingSpace_nil : hasLeadingSpace [] = false := by decide

theorem hasTrailingSpace_nil : hasTrailingSpace [] = false := by decide

theorem hasLeadingSpace_TrimLeftFunc (v : GoString) :
    hasLeadingSpace (TrimLeftFunc v IsSpace) = false := by
  unfold TrimLeftFunc indexFunc
  cases h : indexFuncLoop IsSpace false v.length 0 v with
  | none => exact hasLeadingSpace_nil
  | some p =>
    obtain ⟨k, hk, hk'⟩ := indexFuncLoop_spec _ _ _ _ h
    simp only [Nat.zero_add] at hk
    subst hk
    exact hk'

theorem hasLeadingSpace_TrimFunc (v : GoString) :
    hasLeadingSpace (TrimFunc v IsSpace) = false :=
  hasLeadingSpace_TrimRightFunc (hasLeadingSpace_TrimLeftFunc v)

theorem hasTrailingSpace_TrimFunc (v : GoString) :
    hasTrailingSpace (TrimFunc v IsSpace) = false :=
  hasTrailingSpace_TrimRightFunc _

theorem IsSpace_ascii {c : Nat} (h : c < 0x80) : IsSpace c = asciiSpace c := by
  have : ∀ n, n < 0x80 → IsSpace n = asciiSpace n := by decide!
  exact this c h

theorem hasLeadingSpace_cons_ascii {c : Nat} {t : GoString} (h : c < 0x80)
    (hc : asciiSpace c = false) : hasLeadingSpace (c :: t) = false := by
  unfold hasLeadingSpace
  rcases DR_cases c t with ⟨-, e⟩ | ⟨h1, -⟩ | ⟨h1, -, -⟩
  · rw [e, IsSpace_ascii h, hc]
  · omega
  · omega

theorem trimSpaceStop_spec (u : GoString) (hu : hasLeadingSpace u = false) :
    ∀ k, k ≤ u.length →
      hasLeadingSpace (trimSpaceStop u k) = false ∧
        hasTrailingSpace (trimSpaceStop u k) = false := by
  intro k
  induction k with
  | zero => intro _; exact ⟨hasLeadingSpace_nil, hasTrailingSpace_nil⟩
  | succ k ih =>
    intro hk
    rw [trimSpaceStop]
    by_cases hb : u.getD k 0 ≥ RuneSelf
    · simp only [hb, if_true]
      exact ⟨hasLeadingSpace_TrimRightFunc (hasLeadingSpace_take hu _),
        hasTrailingSpace_TrimRightFunc _⟩
    · simp only [hb, if_false]
      by_cases hsp : asciiSpace (u.getD k 0) = true
      · simp only [hsp, if_true]
        exact ih (by omega)
      · simp only [hsp, Bool.false_eq_true, if_false]
        refine ⟨hasLeadingSpace_take hu _, ?_⟩
        unfold hasTrailingSpace
        have hne : u.take (k + 1) ≠ [] := by
          intro e
          have := congrArg List.length e
          simp only [List.length_take, List.length_nil] at this
          omega
        have hlen : (u.take (k + 1)).length = k + 1 := by
          simp [List.length_take, Nat.min_eq_left hk]
        have hlast : (u.take (k + 1)).getD ((u.take (k + 1)).length - 1) 0 = u.getD k 0 := by
          rw [hlen, Nat.add_sub_cancel, List.getD_eq_getElem?_getD,
            List.getElem?_take_of_lt (by omega), ← List.getD_eq_getElem?_getD]
        have hb' : u.getD k 0 < 0x80 := by
          simp only [RuneSelf, ge_iff_le, not_le] at hb
          exact hb
        rcases DLR_eq hne with ⟨-, e⟩ | ⟨h1, -⟩
        · rw [e, hlast, IsSpace_ascii hb']
          simpa using hsp
        · rw [hlast] at h1
          omega

/-- The result of `TrimSpace` neither starts nor ends with white space. -/
theorem TrimSpace_spec (s : GoString) :
    hasLeadingSpace (TrimSpace s) = false ∧ hasTrailingSpace (TrimSpace s) = false := by
  induction s with
  | nil => exact ⟨hasLeadingSpace_nil, hasTrailingSpace_nil⟩
  | cons c t ih =>
    rw [TrimSpace]
    by_cases hb : c ≥ RuneSelf
    · simp only [hb, if_true]
      exact ⟨hasLeadingSpace_TrimFunc _, hasTrailingSpace_TrimFunc _⟩
    · simp only [hb, if_false]
      by_cases hsp : asciiSpace c = true
      · simp only [hsp, if_true]
        exact ih
      · simp only [hsp, Bool.false_eq_true, if_false]
        have hb' : c < 0x80 := by
          simp only [RuneSelf, ge_iff_le, not_le] at hb
          exact hb
        exact trimSpaceStop_spec _ (hasLeadingSpace_cons_ascii hb' (by simpa using hsp)) _
          (Nat.le_refl _)

/-- What the specification takes from a line is trimmed, not empty and does not
start with `#`. -/
theorem imageOfLine_some {line r : GoString} (h : imageOfLine line = some r) :
    r ≠ [] ∧ r.head? ≠ some 35 ∧ hasLeadingSpace r = false ∧ hasTrailingSpace r = false := by
  unfold imageOfLine at h
  simp only at h
  split_ifs at h with h1 h2
  simp only [Option.some.injEq] at h
  subst h
  simp only [not_or] at h2
  refine ⟨h2.1, ?_, (TrimSpace_spec _).1, (TrimSpace_spec _).2⟩
  intro hh
  apply h2.2
  generalize TrimSpace (List.drop (lit "image:").length (TrimSpace line)) = r at hh
  cases r with
  | nil => simp at hh
  | cons c t =>
    simp only [List.head?_cons, Option.some.injEq] at hh
    subst hh
    simp [HasPrefix, lit_hash]

/-! ## Enough fuel: the loops with a fuel argument never run out -/

/-- The loop of `indexFunc` does not need more fuel than bytes are left. -/
theorem indexFuncLoop_fuel (f : Nat → Bool) (truth : Bool) :
    ∀ (fuel i : Nat) (rest : GoString), rest.length ≤ fuel →
      indexFuncLoop f truth (fuel + 1) i rest = indexFuncLoop f truth fuel i rest := by
  intro fuel
  induction fuel with
  | zero =>
    intro i rest h
    have : rest = [] := List.length_eq_zero.mp (by omega)
    subst this
    simp [indexFuncLoop]
  | succ fuel ih =>
    intro i rest h
    cases rest with
    | nil => simp [indexFuncLoop]
    | cons c t =>
      conv_lhs => rw [indexFuncLoop]
      conv_rhs => rw [indexFuncLoop]
      have hw := (@DR_width (c :: t) (by simp)).1
      rw [ih _ _ (by simp only [List.length_drop, List.length_cons] at h ⊢; omega)]

/-- With at least `len(s)` units of fuel `indexFunc` gives the same result. -/
theorem indexFunc_enough (s : GoString) (f : Nat → Bool) (truth : Bool) (extra : Nat) :
    indexFuncLoop f truth (s.length + extra) 0 s = indexFunc s f truth := by
  induction extra with
  | zero => rfl
  | succ n ih => rw [← Nat.add_assoc, indexFuncLoop_fuel _ _ _ _ _ (by omega), ih]

/-- The loop of `lastIndexFunc` does not need more fuel than bytes are left. -/
theorem lastIndexFuncLoop_fuel (s : GoString) (f : Nat → Bool) (truth : Bool) :
    ∀ (fuel i : Nat), i ≤ fuel → i ≤ s.length →
      lastIndexFuncLoop s f truth (fuel + 1) i = lastIndexFuncLoop s f truth fuel i := by
  intro fuel
  induction fuel with
  | zero =>
    intro i h _
    have : i = 0 := by omega
    subst this
    simp [lastIndexFuncLoop]
  | succ fuel ih =>
    intro i h hi
    conv_lhs => rw [lastIndexFuncLoop]
    conv_rhs => rw [lastIndexFuncLoop]
    by_cases h0 : i = 0
    · simp only [h0, if_true]
    · simp only [h0, if_false]
      have hne : s.take i ≠ [] := by
        intro e
        have := congrArg List.length e
        simp only [List.length_take, List.length_nil] at this
        omega
      have := (DLR_width hne).1
      rw [ih _ (by omega) (by omega)]

/-- With at least `len(s)` units of fuel `lastIndexFunc` gives the same result. -/
theorem lastIndexFunc_enough (s : GoString) (f : Nat → Bool) (truth : Bool) (extra : Nat) :
    lastIndexFuncLoop s f truth (s.length + extra) s.length = lastIndexFunc s f truth := by
  induction extra with
  | zero => rfl
  | succ n ih =>
    rw [← Nat.add_assoc, lastIndexFuncLoop_fuel _ _ _ _ _ (by omega) (Nat.le_refl _), ih]

/-- The backward search of `DecodeLastRuneInString` looks at no more than
`UTFMax` bytes: more steps change nothing. -/
theorem lastRuneStart_fuel (s : GoString) (lim : Nat) :
    ∀ (steps start : Nat), start < lim + steps →
      lastRuneStart s lim (steps + 1) start = lastRuneStart s lim steps start := by
  intro steps
  induction steps with
  | zero =>
    intro start h
    simp [lastRuneStart, show start < lim by omega]
  | succ n ih =>
    intro start h
    conv_lhs => rw [lastRuneStart]
    conv_rhs => rw [lastRuneStart]
    by_cases h1 : start < lim
    · simp only [h1, if_true]
    · simp only [h1, if_false]
      by_cases h3 : start = 0
      · simp only [h3, if_true]
      · rw [ih _ (by omega)]

theorem ite_some_length {α : Type} {p : Prop} [Decidable p] {a b : Option α} {x : α}
    {P : α → Prop} (h : (if p then a else b) = some x) (ha : a = some x → P x)
    (hb : b = some x → P x) : P x := by
  split_ifs at h
  · exact ha h
  · exact hb h

/-- The function `UnquoteChar` consumes at least one byte. -/
theorem UnquoteChar_length {s rem : GoString} {quote r : Nat} {mb : Bool}
    (h : UnquoteChar s quote = some (r, mb, rem)) : rem.length < s.length := by
  unfold UnquoteChar at h
  cases s with
  | nil => simp at h
  | cons c rest =>
    simp only at h
    have key : ∀ (t : GoString) (v : Nat) (b : Bool), t.length < (c :: rest).length →
        some (v, b, t) = some (r, mb, rem) → rem.length < (c :: rest).length := by
      intro t v b ht e
      simp only [Option.some.injEq, Prod.mk.injEq] at e
      obtain ⟨-, -, rfl⟩ := e
      exact ht
    refine ite_some_length (P := fun x => x.2.2.length < (c :: rest).length) h (by simp) ?_
    intro h
    refine ite_some_length (P := fun x => x.2.2.length < (c :: rest).length) h ?_ ?_
    · intro h
      refine key _ _ _ ?_ h
      have := (@DR_width (c :: rest) (by simp)).1
      simp only [List.length_drop, List.length_cons]
      omega
    intro h
    refine ite_some_length (P := fun x => x.2.2.length < (c :: rest).length) h ?_ ?_
    · intro h
      exact key _ _ _ (by simp) h
    intro h
    cases rest with
    | nil => simp at h
    | cons c2 s2 =>
    simp only at h
    refine ite_some_length (P := fun x => x.2.2.length < (c :: c2 :: s2).length) h
      (fun h => key _ _ _ (by simp only [List.length_cons]; omega) h) ?_
    intro h
    refine ite_some_length (P := fun x => x.2.2.length < (c :: c2 :: s2).length) h
      (fun h => key _ _ _ (by simp only [List.length_cons]; omega) h) ?_
    intro h
    refine ite_some_length (P := fun x => x.2.2.length < (c :: c2 :: s2).length) h
      (fun h => key _ _ _ (by simp only [List.length_cons]; omega) h) ?_
    intro h
    refine ite_some_length (P := fun x => x.2.2.length < (c :: c2 :: s2).length) h
      (fun h => key _ _ _ (by simp only [List.length_cons]; omega) h) ?_
    intro h
    refine ite_some_length (P := fun x => x.2.2.length < (c :: c2 :: s2).length) h
      (fun h => key _ _ _ (by simp only [List.length_cons]; omega) h) ?_
    intro h
    refine ite_some_length (P := fun x => x.2.2.length < (c :: c2 :: s2).length) h
      (fun h => key _ _ _ (by simp only [List.length_cons]; omega) h) ?_
    intro h
    refine ite_some_length (P := fun x => x.2.2.length < (c :: c2 :: s2).length) h
      (fun h => key _ _ _ (by simp only [List.length_cons]; omega) h) ?_
    intro h
    refine ite_some_length (P := fun x => x.2.2.length < (c :: c2 :: s2).length) h ?_ ?_
    · intro h
      refine ite_some_length (P := fun x => x.2.2.length < (c :: c2 :: s2).length) h (by simp) ?_
      intro h
      split at h
      · simp at h
      · refine ite_some_length (P := fun x => x.2.2.length < (c :: c2 :: s2).length) h
          (fun h => key _ _ _ (by simp only [List.length_cons, List.length_drop]; omega) h) ?_
        intro h
        refine ite_some_length (P := fun x => x.2.2.length < (c :: c2 :: s2).length) h
          (by simp) ?_
        intro h
        exact key _ _ _ (by simp only [List.length_cons, List.length_drop]; omega) h
    intro h
    refine ite_some_length (P := fun x => x.2.2.length < (c :: c2 :: s2).length) h ?_ ?_
    · intro h
      refine ite_some_length (P := fun x => x.2.2.length < (c :: c2 :: s2).length) h (by simp) ?_
      intro h
      split at h
      · simp at h
      · refine ite_some_length (P := fun x => x.2.2.length < (c :: c2 :: s2).length) h
          (by simp) ?_
        intro h
        exact key _ _ _ (by simp only [List.length_cons, List.length_drop]; omega) h
    intro h
    refine ite_some_length (P := fun x => x.2.2.length < (c :: c2 :: s2).length) h
      (fun h => key _ _ _ (by simp only [List.length_cons]; omega) h) ?_
    intro h
    refine ite_some_length (P := fun x => x.2.2.length < (c :: c2 :: s2).length) h ?_ (by simp)
    intro h
    refine ite_some_length (P := fun x => x.2.2.length < (c :: c2 :: s2).length) h (by simp) ?_
    intro h
    exact key _ _ _ (by simp only [List.length_cons]; omega) h

/-- The loop of `unquote` does not need more fuel than bytes are left. -/
theorem unquoteLoop_fuel (quote : Nat) :
    ∀ (fuel : Nat) (s buf : GoString), s.length ≤ fuel →
      unquoteLoop quote (fuel + 1) s buf = unquoteLoop quote fuel s buf := by
  intro fuel
  induction fuel with
  | zero =>
    intro s buf h
    have : s = [] := List.length_eq_zero.mp (by omega)
    subst this
    simp [unquoteLoop]
  | succ fuel ih =>
    intro s buf h
    cases s with
    | nil => simp [unquoteLoop]
    | cons c t =>
      conv_lhs => rw [unquoteLoop]
      conv_rhs => rw [unquoteLoop]
      by_cases hq : c = quote
      · simp only [hq, if_true]
      · simp only [hq, if_false]
        cases hu : UnquoteChar (c :: t) quote with
        | none => rfl
        | some res =>
          obtain ⟨r, mb, rem⟩ := res
          have hlen := UnquoteChar_length hu
          simp only
          by_cases hn : c = 10
          · simp only [hn, if_true]
          · simp only [hn, if_false]
            by_cases h39 : quote = 39
            · simp only [h39, if_true]
            · simp only [h39, if_false]
              rw [ih _ _ (by simp only [List.length_cons] at h hlen; omega)]

/-- The loop of `RuneCountInString` does not need more fuel than bytes are
left. -/
theorem RuneCountInString_fuel :
    ∀ (fuel : Nat) (s : GoString), s.length ≤ fuel →
      RuneCountInString (fuel + 1) s = RuneCountInString fuel s := by
  intro fuel
  induction fuel with
  | zero =>
    intro s h
    have : s = [] := List.length_eq_zero.mp (by omega)
    subst this
    simp [RuneCountInString]
  | succ fuel ih =>
    intro s h
    cases s with
    | nil => simp [RuneCountInString]
    | cons c t =>
      conv_lhs => rw [RuneCountInString]
      conv_rhs => rw [RuneCountInString]
      have hw := (@DR_width (c :: t) (by simp)).1
      rw [ih _ (by simp only [List.length_drop, List.length_cons] at h ⊢; omega)]

theorem first_size_pos {b : Nat} (h1 : ¬ b < RuneSelf) (h2 : ¬ first b = 0xF1) :
    1 ≤ first b &&& 7 := by
  rcases first_cases b with ⟨h, -⟩ | ⟨-, h⟩ | ⟨-, -, h⟩
  · exact absurd h h1
  · exact absurd h h2
  · rcases h with h | h | h | h | h | h | h <;> rw [h] <;> decide

/-- The loop of `ValidString` does not need more fuel than bytes are left. -/
theorem ValidString_fuel :
    ∀ (fuel : Nat) (s : GoString), s.length ≤ fuel →
      ValidString (fuel + 1) s = ValidString fuel s := by
  intro fuel
  induction fuel with
  | zero =>
    intro s h
    have : s = [] := List.length_eq_zero.mp (by omega)
    subst this
    simp [ValidString]
  | succ fuel ih =>
    intro s h
    cases s with
    | nil => simp [ValidString]
    | cons c t =>
      conv_lhs => rw [ValidString]
      conv_rhs => rw [ValidString]
      by_cases ha : c < RuneSelf
      · simp only [ha, if_true]
        rw [ih _ (by simp only [List.length_drop, List.length_cons] at h ⊢; omega)]
      · simp only [ha, if_false]
        by_cases hx : first c = 0xF1
        · simp only [hx, if_true]
        · simp only [hx, if_false]
          have hsz := first_size_pos ha hx
          rw [ih (List.drop (first c &&& 7) (c :: t))
            (by simp only [List.length_drop, List.length_cons] at h ⊢; omega)]

/-- With more than `len(s)` units of fuel the loop of `unquote` gives the same
result. -/
theorem unquoteLoop_enough (quote : Nat) (s buf : GoString) (extra : Nat) :
    unquoteLoop quote (s.length + extra) s buf = unquoteLoop quote s.length s buf := by
  induction extra with
  | zero => rfl
  | succ n ih => rw [← Nat.add_assoc, unquoteLoop_fuel _ _ _ _ (by omega), ih]

/-- With more than `len(s)` units of fuel `RuneCountInString` gives the same
result. -/
theorem RuneCountInString_enough (s : GoString) (extra : Nat) :
    RuneCountInString (s.length + extra) s = RuneCountInString s.length s := by
  induction extra with
  | zero => rfl
  | succ n ih => rw [← Nat.add_assoc, RuneCountInString_fuel _ _ (by omega), ih]

/-- With more than `len(s)` units of fuel `ValidString` gives the same result. -/
theorem ValidString_enough (s : GoString) (extra : Nat) :
    ValidString (s.length + extra) s = ValidString s.length s := by
  induction extra with
  | zero => rfl
  | succ n ih => rw [← Nat.add_assoc, ValidString_fuel _ _ (by omega), ih]

/-- The five steps that `DecodeLastRuneInString` grants its backward search are
enough: it starts at most two bytes above its limit. -/
theorem lastRuneStart_enough (s : GoString) (start extra : Nat) (h : start ≤ s.length - 2) :
    lastRuneStart s (s.length - UTFMax) (UTFMax + 1 + extra) start =
      lastRuneStart s (s.length - UTFMax) (UTFMax + 1) start := by
  induction extra with
  | zero => rfl
  | succ n ih =>
    rw [← Nat.add_assoc, lastRuneStart_fuel _ _ _ _ (by simp only [UTFMax]; omega), ih]

/-! ## The image name handed to the container engine and the completion check -/

/-- A double-quoted reference without quote, backslash or newline inside and
with valid UTF-8 content is handed to the container engine without its quotes. -/
theorem engineImageName_double_quoted (body : GoString) (h34 : 34 ∉ body) (h92 : 92 ∉ body)
    (h10 : 10 ∉ body) (hv : ValidString body.length body = true) :
    engineImageName (34 :: (body ++ [34])) = body := by
  have hlen : ¬ (34 :: (body ++ [34])).length < 2 := by simp
  have hidx : IndexByte (List.drop 1 (34 :: (body ++ [34]))) 34 = some body.length := by
    simpa using @IndexByte_of_split body [] 34 h34
  have htake : List.take (body.length + 2) (34 :: (body ++ [34])) = 34 :: (body ++ [34]) := by
    apply List.take_of_length_le
    simp
  have hdrop : List.drop (body.length + 2) (34 :: (body ++ [34])) = [] := by
    apply List.drop_of_length_le
    simp
  have hbody : List.drop 1 (List.take (body.length + 2 - 1) (34 :: (body ++ [34]))) = body := by
    simp [List.take_append_eq_append_take]
  have hn92 : (IndexByte (34 :: (body ++ [34])) 92).isNone = true := by
    rw [Option.isNone_iff_eq_none, IndexByte_eq_none]
    simp [h92]
  have hn10 : (IndexByte (34 :: (body ++ [34])) 10).isNone = true := by
    rw [Option.isNone_iff_eq_none, IndexByte_eq_none]
    simp [h10]
  unfold engineImageName Unquote unquote
  rw [if_neg hlen]
  simp only [List.getD_cons_zero, hidx]
  rw [if_neg (by decide)]
  simp only [true_or, if_true, htake, hdrop, hbody, hn92, hn10, and_self, hv, List.length_nil,
    gt_iff_lt, Nat.lt_irrefl, if_false]

/-- The inner loop of the completion check, from a state in which `d ≤ 2` calls
of `wg.Done` have been made: every further matching tag is one more call until
the second call, which panics. -/
theorem foldl_checkTag (nombreImagen : GoString) (tags : List GoString) (d : Nat) (hd : d ≤ 2) :
    tags.foldl (checkTag nombreImagen)
        { counter := 1 - (d : Int), doneCalls := d, panicked := decide (2 ≤ d) } =
      { counter := 1 - ((min 2 (d + (tags.filter (fun tag => Contains tag nombreImagen)).length) :
          Nat) : Int),
        doneCalls := min 2 (d + (tags.filter (fun tag => Contains tag nombreImagen)).length),
        panicked := decide (2 ≤ d + (tags.filter (fun tag => Contains tag nombreImagen)).length) } := by
  induction tags generalizing d with
  | nil => simp [Nat.min_eq_right hd]
  | cons tag t ih =>
    rw [List.foldl_cons]
    by_cases hp : 2 ≤ d
    · have hd2 : d = 2 := by omega
      subst hd2
      have e : checkTag nombreImagen
          { counter := 1 - ((2 : Nat) : Int), doneCalls := 2, panicked := decide (2 ≤ 2) } tag =
          { counter := 1 - ((2 : Nat) : Int), doneCalls := 2, panicked := decide (2 ≤ 2) } := by
        simp [checkTag]
      rw [e, ih 2 (by omega)]
      simp
    · by_cases hm : Contains tag nombreImagen = true
      · have e : checkTag nombreImagen
            { counter := 1 - (d : Int), doneCalls := d, panicked := decide (2 ≤ d) } tag =
            { counter := 1 - ((d + 1 : Nat) : Int), doneCalls := d + 1,
              panicked := decide (2 ≤ d + 1) } := by
          simp only [checkTag, hp, decide_False, Bool.false_eq_true, if_false, hm, if_true,
            CheckState.Done]
          congr 1
          · push_cast; ring
          · have : d = 0 ∨ d = 1 := by omega
            rcases this with rfl | rfl <;> simp
        rw [e, ih (d + 1) (by omega)]
        simp only [List.filter_cons, hm, if_true, List.length_cons]
        rw [show d + 1 + (t.filter (fun tag => Contains tag nombreImagen)).length =
          d + ((t.filter (fun tag => Contains tag nombreImagen)).length + 1) from by omega]
      · have e : checkTag nombreImagen
            { counter := 1 - (d : Int), doneCalls := d, panicked := decide (2 ≤ d) } tag =
            { counter := 1 - (d : Int), doneCalls := d, panicked := decide (2 ≤ d) } := by
          simp [checkTag, hp, hm]
        rw [e, ih d hd]
        simp [List.filter_cons, hm]

/-- The completion check of `ImagePull` on any image list: `wg.Done` is called
once for each tag that contains the image name, up to the second call, which
makes the counter negative and panics. -/
theorem ImagePull_check_eq (list : List ImageSummary) (nombreImagen : GoString) :
    ImagePull_check list nombreImagen =
      { counter := 1 - ((min 2 (((list.map (·.RepoTags)).flatten.filter
            (fun tag => Contains tag nombreImagen)).length) : Nat) : Int),
        doneCalls := min 2 (((list.map (·.RepoTags)).flatten.filter
            (fun tag => Contains tag nombreImagen)).length),
        panicked := decide (2 ≤ ((list.map (·.RepoTags)).flatten.filter
            (fun tag => Contains tag nombreImagen)).length) } := by
  have key : ∀ (l : List ImageSummary) (d : Nat), d ≤ 2 →
      l.foldl (fun st ims => ims.RepoTags.foldl (checkTag nombreImagen) st)
          { counter := 1 - (d : Int), doneCalls := d, panicked := decide (2 ≤ d) } =
        { counter := 1 - ((min 2 (d + ((l.map (·.RepoTags)).flatten.filter
              (fun tag => Contains tag nombreImagen)).length) : Nat) : Int),
          doneCalls := min 2 (d + ((l.map (·.RepoTags)).flatten.filter
              (fun tag => Contains tag nombreImagen)).length),
          panicked := decide (2 ≤ d + ((l.map (·.RepoTags)).flatten.filter
              (fun tag => Contains tag nombreImagen)).length) } := by
    intro l
    induction l with
    | nil => intro d hd; simp [Nat.min_eq_right hd]
    | cons ims t ih =>
      intro d hd
      rw [List.foldl_cons, foldl_checkTag nombreImagen ims.RepoTags d hd]
      have h2 : min 2 (d + (ims.RepoTags.filter (fun tag => Contains tag nombreImagen)).length) ≤ 2 :=
        Nat.min_le_left _ _
      have e : decide (2 ≤ d + (ims.RepoTags.filter (fun tag => Contains tag nombreImagen)).length) =
          decide (2 ≤ min 2 (d + (ims.RepoTags.filter
            (fun tag => Contains tag nombreImagen)).length)) := by
        congr 1
        apply propext
        omega
      rw [e, ih _ h2]
      simp only [List.map_cons, List.flatten_cons, List.filter_append, List.length_append]
      congr 1
      · congr 2; omega
      · omega
      · congr 1; apply propext; omega
  have := key list 0 (by omega)
  simpa [ImagePull_check] using this

/-- A tag that contains a name contains the first byte of the name. -/
theorem Contains_head {q : Nat} {t : GoString} : ∀ (tag : GoString),
    Contains tag (q :: t) = true → q ∈ tag := by
  intro tag
  induction tag with
  | nil => intro h; simp [Contains, Index, HasPrefix] at h
  | cons c s ih =>
    intro h
    unfold Contains at h
    rw [Index] at h
    by_cases hp : HasPrefix (c :: s) (q :: t) = true
    · simp only [HasPrefix, List.length_cons, List.take_succ_cons, Bool.and_eq_true,
        beq_iff_eq, List.cons.injEq] at hp
      rw [hp.2.1]
      exact List.mem_cons_self _ _
    · rw [if_neg hp] at h
      simp only [Option.isSome_map'] at h
      exact List.mem_cons_of_mem _ (ih h)

/-- The wait group of a run of `ImagePull`: the loops decide it when the run
reaches them, and before them `wg.Done` has not been called. -/
theorem ImagePull_wg (cli : DockerClient) (nombreImagen : GoString) :
    (ImagePull cli nombreImagen).wg.doneCalls ≤ (matchingTags cli.list nombreImagen).length ∧
      ((ImagePull cli nombreImagen).exit = ImagePullExit.checked →
        (ImagePull cli nombreImagen).wg = ImagePull_check cli.list nombreImagen) ∧
      ((ImagePull cli nombreImagen).exit ≠ ImagePullExit.checked →
        (ImagePull cli nombreImagen).wg.doneCalls = 0 ∧
        0 ≤ (ImagePull cli nombreImagen).wg.counter ∧
        (ImagePull cli nombreImagen).wg.panicked = false) := by
  unfold ImagePull
  by_cases h1 : cli.newClientFails = true
  · simp [h1]
  · by_cases h2 : cli.ImagePullFails (Unquote nombreImagen).1 = true
    · simp [h1, h2]
    · by_cases h3 : cli.listFails = true
      · simp [h1, h2, h3]
      · simp only [h1, h2, h3, Bool.false_eq_true, if_false, ne_eq, not_true_eq_false,
          false_implies, and_true, true_implies, true_and]
        rw [ImagePull_check_eq]
        exact Nat.min_le_right _ _

/-- Only a name with a quote character in front reaches the completion check. -/
theorem ImagePull_checked_quoted (cli : DockerClient) (nombreImagen : GoString)
    (h : (ImagePull cli nombreImagen).exit = ImagePullExit.checked) :
    ∃ q t, nombreImagen = q :: t ∧ (q = 34 ∨ q = 39 ∨ q = 96) := by
  by_cases hq : nombreImagen.getD 0 0 ≠ 34 ∧ nombreImagen.getD 0 0 ≠ 39 ∧
      nombreImagen.getD 0 0 ≠ 96
  · exfalso
    have e := engineImageName_of_not_quoted nombreImagen hq
    unfold engineImageName at e
    unfold ImagePull at h
    by_cases h1 : cli.newClientFails = true
    · simp [h1] at h
    · simp [h1, e, DockerClient.ImagePullFails] at h
  · cases nombreImagen with
    | nil => simp at hq
    | cons q t =>
      refine ⟨q, t, rfl, ?_⟩
      simp only [List.getD_cons_zero] at hq
      omega

/-- No tag without quote characters contains a name that starts with one. -/
theorem matchingTags_no_quote (list : List ImageSummary) {q : Nat} {t : GoString}
    (hq : q = 34 ∨ q = 39 ∨ q = 96)
    (h : ∀ ims ∈ list, ∀ tag ∈ ims.RepoTags, 34 ∉ tag ∧ 39 ∉ tag ∧ 96 ∉ tag) :
    matchingTags list (q :: t) = [] := by
  unfold matchingTags
  rw [List.filter_eq_nil_iff]
  intro tag htag hcon
  obtain ⟨tags, htags, hmem⟩ := List.mem_flatten.mp htag
  obtain ⟨ims, hims, rfl⟩ := List.mem_map.mp htags
  have hin := Contains_head tag hcon
  have := h ims hims tag hmem
  rcases hq with rfl | rfl | rfl
  · exact this.1 hin
  · exact this.2.1 hin
  · exact this.2.2 hin

/-- On an image list whose tags contain no quote character, `wg.Done` is not
called at all, whatever the image name. -/
theorem ImagePull_no_quote_tags (cli : DockerClient) (nombreImagen : GoString)
    (h : ∀ ims ∈ cli.list, ∀ tag ∈ ims.RepoTags, 34 ∉ tag ∧ 39 ∉ tag ∧ 96 ∉ tag) :
    (ImagePull cli nombreImagen).wg.doneCalls = 0 := by
  by_cases hc : (ImagePull cli nombreImagen).exit = ImagePullExit.checked
  · obtain ⟨q, t, rfl, hq⟩ := ImagePull_checked_quoted cli _ hc
    have := (ImagePull_wg cli (q :: t)).1
    rw [matchingTags_no_quote cli.list hq h] at this
    simpa using this
  · exact ((ImagePull_wg cli nombreImagen).2.2 hc).1

/-- The name `nginx:1.21` without quotes: `Unquote` fails, the empty name is
pulled, line 299 panics and the image list is never looked at. -/
theorem ImagePull_unquoted_example :
    ImagePull
        { newClientFails := false, pullFails := fun _ => false, listFails := false,
          list := [{ RepoTags := [lit "nginx:1.21", lit "nginx:1.21.6"] }] }
        (lit "nginx:1.21") =
      { exit := ImagePullExit.pullPanic,
        wg := { counter := 0, doneCalls := 0, panicked := false } } := by
  decide

/-! ## Examples -/

/-- The function `TrimSpace` on ASCII, Unicode and invalid input: Unicode spaces
(here U+2000 and U+3000) are trimmed, invalid bytes are kept. -/
theorem TrimSpace_examples :
    TrimSpace (lit "") = lit "" ∧
      TrimSpace (lit " \t\r\n \t\t\r\r\n\n ") = lit "" ∧
      TrimSpace (lit " \t\r\n x\t\t\r\r\n\n ") = lit "x" ∧
      TrimSpace (EncodeRune 0x2000 ++ lit "\t\r\n x\t\t\r\r\ny\n " ++ EncodeRune 0x3000) =
        lit "x\t\t\r\r\ny" ∧
      TrimSpace (lit "1 \t\r\n2") = lit "1 \t\r\n2" ∧
      TrimSpace (lit " x" ++ [0x80]) = lit "x" ++ [0x80] ∧
      TrimSpace (lit "x " ++ [0xC0, 0xC0] ++ lit " ") = lit "x " ++ [0xC0, 0xC0] ∧
      TrimSpace (lit "x ☺ ") = lit "x ☺" := by
  decide

/-- The function `Unquote` on literals of the three kinds and on strings that are
no literals. -/
theorem Unquote_examples :
    Unquote (lit "\"\"") = (lit "", false) ∧
      Unquote (lit "\"a\\tb\\x41\\u00e9\\101\\\"\"") = (lit "a\tbAéA\"", false) ∧
      Unquote (lit "'a'") = (lit "a", false) ∧
      Unquote (lit "'\\n'") = (lit "\n", false) ∧
      Unquote ([96] ++ lit "a\\n\rb" ++ [96]) = (lit "a\\nb", false) ∧
      Unquote (lit "") = (lit "", true) ∧
      Unquote (lit "\"") = (lit "", true) ∧
      Unquote (lit "\"a") = (lit "", true) ∧
      Unquote (lit "'ab'") = (lit "", true) ∧
      Unquote (lit "\"\\z\"") = (lit "", true) ∧
      Unquote (lit "\"a\"b\"") = (lit "", true) ∧
      Unquote (lit "abc") = (lit "", true) := by
  decide

/-- The function `ExtractImagesFromManifests` on the small inputs of the
specification: no image, one image, a value with nothing or only a comment after
`image:`, duplicates, and a quoted value, which keeps its quotes. -/
theorem ExtractImagesFromManifests_examples :
    ExtractImagesFromManifests (lit "") = some [] ∧
      ExtractImagesFromManifests (lit "kind: Pod\nname: web\n") = some [] ∧
      ExtractImagesFromManifests (lit "image: nginx:1.21") = some [lit "nginx:1.21"] ∧
      ExtractImagesFromManifests (lit "image:") = some [] ∧
      ExtractImagesFromManifests (lit "image: # comment-only") = some [] ∧
      ExtractImagesFromManifests (lit "image: a\r\n  image: b\nimage: a\n") =
        some [lit "a", lit "b", lit "a"] ∧
      ExtractImagesFromManifests (lit "  - image: a\n") = some [] ∧
      ExtractImagesFromManifests (lit "image: \"docker.io/bitnami/mysql:8.0\"") =
        some [lit "\"docker.io/bitnami/mysql:8.0\""] := by
  decide

/-! ## The claims of the specification -/

/-- When every line fits the buffer of the scanner, the function returns what the
specification takes from the lines of the text. -/
theorem ExtractImagesFromManifests_of_short (manifests : GoString)
    (h : ∀ l ∈ rawLines manifests, l.length < MaxScanTokenSize) :
    ExtractImagesFromManifests manifests = some (specExtract manifests) := by
  rw [ExtractImagesFromManifests_eq, scannedLines_of_short h]
  rfl

/-- Claim C1 fails at a line of 65535 bytes terminated by `\r\n`: the text of
65535 letters `a`, `\r\n` and `image: x` has two lines, both shorter than the
64 KiB token limit, and the specification takes `x` from them, but the line
does not fit the buffer of the scanner together with its carriage return and
`ExtractImagesFromManifests` returns the empty list. -/
theorem ExtractImagesFromManifests_spec_crlf_line :
    (∀ l ∈ textLines (List.replicate 65535 97 ++ lit "\r\nimage: x"),
        l.length < MaxScanTokenSize) ∧
      specExtract (List.replicate 65535 97 ++ lit "\r\nimage: x") = [lit "x"] ∧
      ExtractImagesFromManifests (List.replicate 65535 97 ++ lit "\r\nimage: x") = some [] := by
  have h := ExtractImagesFromManifests_crlf_gap (List.replicate 65535 97)
    (fun x hx => List.eq_of_mem_replicate hx) (by rw [List.length_replicate]; decide)
  refine ⟨?_, h.2.1, h.2.2⟩
  intro l hl
  rw [h.1] at hl
  simp only [List.mem_cons, List.mem_singleton, List.not_mem_nil, or_false] at hl
  rcases hl with rfl | rfl
  · rw [List.length_replicate]; decide
  · decide

/-- Claim C1, amended. For every manifest text whose lines are terminated by
`\n` or `\r\n` and are each, counted together with the carriage return of a
`\r\n` terminator (all bytes between two newlines), shorter than the 64 KiB
token limit of the scanner, `ExtractImagesFromManifests` returns exactly the
list obtained by going through the lines in order, trimming each line, keeping
those that start with `image:`, taking the trimmed text after that `image:` and
dropping the values that are empty or start with `#`: one entry per qualifying
line, in line order, duplicates kept. -/
theorem ExtractImagesFromManifests_spec (manifests : GoString)
    (h : ∀ l ∈ rawLines manifests, l.length < MaxScanTokenSize) :
    ExtractImagesFromManifests manifests = some (specExtract manifests) :=
  ExtractImagesFromManifests_of_short manifests h

/-- Claim C1, amended, at the text of the specification: the result is `redis:6`
and `postgres:13`. -/
theorem ExtractImagesFromManifests_spec_witness :
    (∀ l ∈ rawLines (lit "  image:   redis:6 \n# image: ignored\nimage: #\nimage: postgres:13"),
        l.length < MaxScanTokenSize) ∧
      ExtractImagesFromManifests
          (lit "  image:   redis:6 \n# image: ignored\nimage: #\nimage: postgres:13") =
        some (specExtract
          (lit "  image:   redis:6 \n# image: ignored\nimage: #\nimage: postgres:13")) ∧
      specExtract (lit "  image:   redis:6 \n# image: ignored\nimage: #\nimage: postgres:13") =
        [lit "redis:6", lit "postgres:13"] :=
  ⟨by decide, ExtractImagesFromManifests_spec _ (by decide), by decide⟩

/-- Claim C2. For every manifest text, `ExtractImagesFromManifests` returns, and
every string in its result is non-empty, does not begin with `#`, and has no
leading or trailing white space (its first and its last rune are no spaces in
the sense of `unicode.IsSpace`). -/
theorem ExtractImagesFromManifests_entries (manifests : GoString) :
    ∃ out, ExtractImagesFromManifests manifests = some out ∧
      ∀ r ∈ out, r ≠ [] ∧ r.head? ≠ some 35 ∧ hasLeadingSpace r = false ∧
        hasTrailingSpace r = false := by
  refine ⟨_, ExtractImagesFromManifests_eq manifests, ?_⟩
  intro r hr
  obtain ⟨l, -, hl⟩ := List.mem_filterMap.mp hr
  exact imageOfLine_some hl

/-- Claim C3. For every manifest text in which no line, after trimming white
space, begins with `image:`, `ExtractImagesFromManifests` returns an empty
sequence. -/
theorem ExtractImagesFromManifests_no_image (manifests : GoString)
    (h : ∀ l ∈ textLines manifests, HasPrefix (TrimSpace l) (lit "image:") = false) :
    ExtractImagesFromManifests manifests = some [] := by
  rw [ExtractImagesFromManifests_eq]
  congr 1
  rw [List.filterMap_eq_nil_iff]
  intro l hl
  have := h l (scannedLines_subset _ _ l hl)
  simp [imageOfLine, this]

/-- Claim C3 at the empty text: the result is empty. -/
theorem ExtractImagesFromManifests_no_image_witness :
    (∀ l ∈ textLines [], HasPrefix (TrimSpace l) (lit "image:") = false) ∧
      ExtractImagesFromManifests [] = some [] :=
  ⟨by decide, ExtractImagesFromManifests_no_image [] (by decide)⟩

/-- Claim C4 fails for a lone carriage return: `image: a` and `image: b` joined
with `\r` are one line for the scanner, whose value is `a\rimage: b`, while
joined with `\n` they give `a` and `b`. -/
theorem ExtractImagesFromManifests_lone_cr :
    (∀ l ∈ [lit "image: a", lit "image: b"], 13 ∉ l ∧ 10 ∉ l) ∧
      ExtractImagesFromManifests (joinLines (lit "\r") [lit "image: a", lit "image: b"]) =
        some [lit "a\rimage: b"] ∧
      ExtractImagesFromManifests (joinLines (lit "\n") [lit "image: a", lit "image: b"]) =
        some [lit "a", lit "b"] ∧
      ExtractImagesFromManifests (joinLines (lit "\r") [lit "image: a", lit "image: b"]) ≠
        ExtractImagesFromManifests (joinLines (lit "\n") [lit "image: a", lit "image: b"]) := by
  decide

/-- Claim C4, amended. For every sequence of lines, none containing `\r` or
`\n` and each shorter than 65535 bytes (so that a line fits the buffer of the
scanner together with its carriage return), joining them with `\r\n` gives the
same extraction result as joining them with `\n`. -/
theorem ExtractImagesFromManifests_crlf (lines : List GoString)
    (h : ∀ l ∈ lines, 13 ∉ l ∧ 10 ∉ l ∧ l.length + 1 < MaxScanTokenSize) :
    ExtractImagesFromManifests (joinLines (lit "\r\n") lines) =
      ExtractImagesFromManifests (joinLines (lit "\n") lines) := by
  by_cases hl : lines = []
  · subst hl; rfl
  · rw [ExtractImagesFromManifests_eq, ExtractImagesFromManifests_eq, lit_crlf, lit_newline,
      scannedLines_joinLines_crlf lines hl h,
      scannedLines_joinLines_lf lines hl (fun l hx => ⟨(h l hx).1, (h l hx).2.1, by
        have := (h l hx).2.2; omega⟩)]

/-- Claim C4, amended, at the lines `image: a` and `image: b`. -/
theorem ExtractImagesFromManifests_crlf_witness :
    (∀ l ∈ [lit "image: a", lit "image: b"],
        13 ∉ l ∧ 10 ∉ l ∧ l.length + 1 < MaxScanTokenSize) ∧
      ExtractImagesFromManifests (joinLines (lit "\r\n") [lit "image: a", lit "image: b"]) =
        ExtractImagesFromManifests (joinLines (lit "\n") [lit "image: a", lit "image: b"]) :=
  ⟨by decide, ExtractImagesFromManifests_crlf _ (by decide)⟩

/-- Claim C5. For every chart type `t`, `isChartInstallable` returns
`(true, nil)` if and only if `t` is `""` or `"application"`; for every other `t`
it returns false with the error `"<t> charts are not installable"`, which
`InstallChart` treats as fatal; for the two installable types `InstallChart`
goes on. -/
theorem isChartInstallable_spec (t : GoString) :
    (isChartInstallable t = (true, none) ↔ (t = lit "" ∨ t = lit "application")) ∧
      (¬ (t = lit "" ∨ t = lit "application") →
        (isChartInstallable t).1 = false ∧
        (isChartInstallable t).2 = some (t ++ lit " charts are not installable") ∧
        InstallChart_typeCheck t =
          StepOutcome.fatal (some (t ++ lit " charts are not installable"))) ∧
      ((t = lit "" ∨ t = lit "application") → InstallChart_typeCheck t = StepOutcome.proceed) := by
  unfold InstallChart_typeCheck isChartInstallable
  by_cases h : t = lit "" ∨ t = lit "application"
  · simp [h]
  · simp [h]

/-- Claim C5 at the chart types `library` and `application`. -/
theorem isChartInstallable_spec_witness :
    ¬ (lit "library" = lit "" ∨ lit "library" = lit "application") ∧
      isChartInstallable (lit "library") =
        (false, some (lit "library charts are not installable")) ∧
      InstallChart_typeCheck (lit "library") =
        StepOutcome.fatal (some (lit "library charts are not installable")) ∧
      InstallChart_typeCheck (lit "application") = StepOutcome.proceed :=
  ⟨by decide, by decide,
    ((isChartInstallable_spec (lit "library")).2.1 (by decide)).2.2,
    (isChartInstallable_spec (lit "application")).2.2 (by decide)⟩

/-- Claim C6 at three image references: the name that `ImagePull` and
`LayersSizeImages` hand to the container engine is empty for the reference
`nginx:1.21` without quotes and for the single-quoted `'nginx:1.21'`; only the
double-quoted `"nginx:1.21"` is handed over as `nginx:1.21`. -/
theorem engineImageName_unquoted :
    engineImageName (lit "nginx:1.21") = lit "" ∧
      engineImageName (lit "'nginx:1.21'") = lit "" ∧
      engineImageName (lit "\"nginx:1.21\"") = lit "nginx:1.21" := by
  decide

/-- Claim C7 fails when the sum leaves the range of `int64`: for the layer
sizes `2^63 - 1` and `1`, both non-negative, `TotalSize` is `-2^63`, which is
negative and is not the sum of the sizes. -/
theorem LayersSizeImages_info_overflow :
    (∀ l ∈ [({ Size := 2 ^ 63 - 1 } : HistoryResponseItem), { Size := 1 }], 0 ≤ l.Size) ∧
      (LayersSizeImages_info (lit "nginx:1.21") [{ Size := 2 ^ 63 - 1 }, { Size := 1 }]).TotalSize =
        -2 ^ 63 ∧
      (LayersSizeImages_info (lit "nginx:1.21") [{ Size := 2 ^ 63 - 1 }, { Size := 1 }]).TotalSize ≠
        (([{ Size := 2 ^ 63 - 1 }, { Size := 1 }] : List HistoryResponseItem).map (·.Size)).sum ∧
      (LayersSizeImages_info (lit "nginx:1.21") [{ Size := 2 ^ 63 - 1 }, { Size := 1 }]).TotalSize < 0 := by
  decide

/-- Claim C7, amended. For every layer history the summary built by
`LayersSizeImages` has `CantidadCapas` equal to the number of layers and
`TotalSize` equal to the sum of the sizes of all layers wrapped around into the
range of `int64`; whenever that sum lies in the range of `int64`, `TotalSize`
is the sum itself, and with all layer sizes non-negative it is then
non-negative. -/
theorem LayersSizeImages_info_spec (nombreImagen : GoString) (history : List HistoryResponseItem) :
    (LayersSizeImages_info nombreImagen history).CantidadCapas = history.length ∧
      (LayersSizeImages_info nombreImagen history).TotalSize =
        wrapInt64 ((history.map (·.Size)).sum) ∧
      (-2 ^ 63 ≤ (history.map (·.Size)).sum ∧ (history.map (·.Size)).sum < 2 ^ 63 →
        (LayersSizeImages_info nombreImagen history).TotalSize = (history.map (·.Size)).sum ∧
        ((∀ l ∈ history, 0 ≤ l.Size) →
          0 ≤ (LayersSizeImages_info nombreImagen history).TotalSize)) := by
  refine ⟨rfl, LayersSizeImages_info_TotalSize nombreImagen history, ?_⟩
  intro h
  rw [LayersSizeImages_info_TotalSize, wrapInt64_of_range h.1 h.2]
  refine ⟨rfl, ?_⟩
  intro hpos
  apply List.sum_nonneg
  intro x hx
  obtain ⟨l, hl, rfl⟩ := List.mem_map.mp hx
  exact hpos l hl

/-- Claim C7, amended, at a history of three layers of 1024, 0 and 2048
bytes: three layers, 3072 bytes, a non-negative total. -/
theorem LayersSizeImages_info_spec_witness :
    (-2 ^ 63 ≤ (([{ Size := 1024 }, { Size := 0 }, { Size := 2048 }] :
          List HistoryResponseItem).map (·.Size)).sum ∧
        (([{ Size := 1024 }, { Size := 0 }, { Size := 2048 }] :
          List HistoryResponseItem).map (·.Size)).sum < 2 ^ 63) ∧
      (LayersSizeImages_info (lit "nginx:1.21")
          [{ Size := 1024 }, { Size := 0 }, { Size := 2048 }]).CantidadCapas = 3 ∧
      (LayersSizeImages_info (lit "nginx:1.21")
          [{ Size := 1024 }, { Size := 0 }, { Size := 2048 }]).TotalSize = 3072 ∧
      0 ≤ (LayersSizeImages_info (lit "nginx:1.21")
          [{ Size := 1024 }, { Size := 0 }, { Size := 2048 }]).TotalSize :=
  ⟨by decide,
    (LayersSizeImages_info_spec (lit "nginx:1.21")
      [{ Size := 1024 }, { Size := 0 }, { Size := 2048 }]).1,
    ((LayersSizeImages_info_spec (lit "nginx:1.21")
      [{ Size := 1024 }, { Size := 0 }, { Size := 2048 }]).2.2 (by decide)).1.trans (by decide),
    ((LayersSizeImages_info_spec (lit "nginx:1.21")
      [{ Size := 1024 }, { Size := 0 }, { Size := 2048 }]).2.2 (by decide)).2 (by decide)⟩

/-- Claim C8 at a text whose first line has 65537 bytes: the later line
`image: x` is a line of the text and qualifies with the value `x`, and
`ExtractImagesFromManifests` returns the empty list, because `Scan` stops at the
long line with `ErrTooLong` and the error is not looked at. -/
theorem ExtractImagesFromManifests_long_line :
    imageOfLine (lit "image: x") = some (lit "x") ∧
      lit "image: x" ∈ textLines (List.replicate 65537 97 ++ lit "\nimage: x") ∧
      ExtractImagesFromManifests (List.replicate 65537 97 ++ lit "\nimage: x") = some [] :=
  ExtractImagesFromManifests_after_long _ (not_mem_replicate_a _)
    (by rw [List.length_replicate]; decide)

/-- Claim C9 fails at a line of 65535 bytes terminated by `\r\n`: with `a` the
text of 65535 letters `a` and `\r\n`, and `b` the text `image: x`, all lines are
shorter than the 64 KiB token limit, `ExtractImagesFromManifests(a)` is empty,
`ExtractImagesFromManifests(b)` is `x`, and
`ExtractImagesFromManifests(a ++ "\n" ++ b)` is empty. -/
theorem ExtractImagesFromManifests_append_crlf_line :
    (∀ l ∈ textLines (List.replicate 65535 97 ++ lit "\r\n"), l.length < MaxScanTokenSize) ∧
      (∀ l ∈ textLines (lit "image: x"), l.length < MaxScanTokenSize) ∧
      ExtractImagesFromManifests (List.replicate 65535 97 ++ lit "\r\n") = some [] ∧
      ExtractImagesFromManifests (lit "image: x") = some [lit "x"] ∧
      ExtractImagesFromManifests
        (List.replicate 65535 97 ++ lit "\r\n" ++ lit "\n" ++ lit "image: x") = some [] := by
  have h := ExtractImagesFromManifests_crlf_gap_append (List.replicate 65535 97)
    (fun x hx => List.eq_of_mem_replicate hx) (by rw [List.length_replicate]; decide)
  refine ⟨?_, by decide, h.2.1, by decide, h.2.2⟩
  intro l hl
  rw [h.1] at hl
  simp only [List.mem_cons, List.mem_singleton, List.not_mem_nil, or_false] at hl
  rcases hl with rfl | rfl
  · rw [List.length_replicate]; decide
  · decide

/-- Claim C9, amended. For all texts `a` and `b` whose lines are each, counted
together with the carriage return of a `\r\n` terminator (all bytes between two
newlines), below the 64 KiB token limit of the scanner,
`ExtractImagesFromManifests(a ++ "\n" ++ b)` is `ExtractImagesFromManifests(a)`
followed by `ExtractImagesFromManifests(b)`. -/
theorem ExtractImagesFromManifests_append (a b : GoString)
    (ha : ∀ l ∈ rawLines a, l.length < MaxScanTokenSize)
    (hb : ∀ l ∈ rawLines b, l.length < MaxScanTokenSize) :
    ∃ ra rb, ExtractImagesFromManifests a = some ra ∧ ExtractImagesFromManifests b = some rb ∧
      ExtractImagesFromManifests (a ++ lit "\n" ++ b) = some (ra ++ rb) := by
  have hab : ∀ l ∈ rawLines (a ++ lit "\n" ++ b), l.length < MaxScanTokenSize := by
    intro l hl
    rw [lit_newline, List.append_assoc, List.singleton_append, rawLines_append,
      List.mem_append] at hl
    rcases hl with hl | hl
    · exact ha l hl
    · exact hb l hl
  refine ⟨_, _, ExtractImagesFromManifests_of_short a ha, ExtractImagesFromManifests_of_short b hb, ?_⟩
  rw [ExtractImagesFromManifests_of_short _ hab]
  simp only [specExtract, textLines]
  rw [lit_newline, List.append_assoc, List.singleton_append, rawLines_append, List.map_append,
    List.filterMap_append]

/-- Claim C9, amended, at two small documents. -/
theorem ExtractImagesFromManifests_append_witness :
    (∀ l ∈ rawLines (lit "image: a\nimage: b"), l.length < MaxScanTokenSize) ∧
      (∀ l ∈ rawLines (lit "kind: Pod\nimage: c\n"), l.length < MaxScanTokenSize) ∧
      ∃ ra rb, ExtractImagesFromManifests (lit "image: a\nimage: b") = some ra ∧
        ExtractImagesFromManifests (lit "kind: Pod\nimage: c\n") = some rb ∧
        ExtractImagesFromManifests (lit "image: a\nimage: b" ++ lit "\n" ++
          lit "kind: Pod\nimage: c\n") = some (ra ++ rb) :=
  ⟨by decide, by decide, ExtractImagesFromManifests_append _ _ (by decide) (by decide)⟩

/-- Claim C10 fails at the image name `"nginx:1.21"`, quotes included (the
value of the manifest line `image: "nginx:1.21"`), and an image list with two
tags that contain it: the name is unquoted and pulled, the loops are reached,
both tags match, `wg.Done` is called twice, the counter of the wait group goes
from 1 to -1 and the second call panics. -/
theorem ImagePull_two_tags :
    engineImageName (lit "\"nginx:1.21\"") = lit "nginx:1.21" ∧
      matchingTags [{ RepoTags := [lit "\"nginx:1.21\"", lit "\"nginx:1.21\"-alpine"] }]
          (lit "\"nginx:1.21\"") =
        [lit "\"nginx:1.21\"", lit "\"nginx:1.21\"-alpine"] ∧
      ImagePull
          { newClientFails := false, pullFails := fun _ => false, listFails := false,
            list := [{ RepoTags := [lit "\"nginx:1.21\"", lit "\"nginx:1.21\"-alpine"] }] }
          (lit "\"nginx:1.21\"") =
        { exit := ImagePullExit.checked,
          wg := { counter := -1, doneCalls := 2, panicked := true } } := by
  decide

/-- Claim C10, amended. In the completion check of `ImagePull` the done signal
is issued at every repo tag that contains the image name. For every image name
and every image list in which at most one repo tag contains the image name, or
in which no repo tag contains a quote character, the number of `wg.Done` calls
is at most one, so the counter of the wait group (initialised to 1) never
becomes negative and no call panics; when the list is iterated, the number of
calls is the number of tags that contain the image name. -/
theorem ImagePull_done_calls (cli : DockerClient) (nombreImagen : GoString)
    (h : (matchingTags cli.list nombreImagen).length ≤ 1 ∨
      ∀ ims ∈ cli.list, ∀ tag ∈ ims.RepoTags, 34 ∉ tag ∧ 39 ∉ tag ∧ 96 ∉ tag) :
    (ImagePull cli nombreImagen).wg.doneCalls ≤ 1 ∧
      0 ≤ (ImagePull cli nombreImagen).wg.counter ∧
      (ImagePull cli nombreImagen).wg.panicked = false ∧
      ((ImagePull cli nombreImagen).exit = ImagePullExit.checked →
        (ImagePull cli nombreImagen).wg.doneCalls =
          (matchingTags cli.list nombreImagen).length) := by
  by_cases hc : (ImagePull cli nombreImagen).exit = ImagePullExit.checked
  · have hm : (matchingTags cli.list nombreImagen).length ≤ 1 := by
      rcases h with h | h
      · exact h
      · obtain ⟨q, t, rfl, hq⟩ := ImagePull_checked_quoted cli _ hc
        rw [matchingTags_no_quote cli.list hq h]
        exact Nat.zero_le _
    have e := (ImagePull_wg cli nombreImagen).2.1 hc
    rw [e, ImagePull_check_eq]
    unfold matchingTags at hm
    simp only [true_implies, hc]
    refine ⟨?_, ?_, ?_, ?_⟩
    · omega
    · omega
    · exact decide_eq_false (by omega)
    · unfold matchingTags; omega
  · obtain ⟨h1, h2, h3⟩ := (ImagePull_wg cli nombreImagen).2.2 hc
    exact ⟨by omega, h2, h3, fun h => absurd h hc⟩

/-- Claim C10, amended, at two inputs. The name `nginx:1.21` and the tags
`nginx:1.21` and `nginx:1.21.6`, without quote characters: both tags contain
the name and `wg.Done` is called at most once (the pull of the empty name fails
and the list is not iterated). The name `"nginx:1.21"` and a
list in which one tag contains it: the list is iterated and `wg.Done` is
called once. -/
theorem ImagePull_done_calls_witness :
    (∀ ims ∈ [({ RepoTags := [lit "nginx:1.21", lit "nginx:1.21.6"] } : ImageSummary)],
        ∀ tag ∈ ims.RepoTags, 34 ∉ tag ∧ 39 ∉ tag ∧ 96 ∉ tag) ∧
      (matchingTags [{ RepoTags := [lit "nginx:1.21", lit "nginx:1.21.6"] }]
        (lit "nginx:1.21")).length = 2 ∧
      (ImagePull
          { newClientFails := false, pullFails := fun _ => false, listFails := false,
            list := [{ RepoTags := [lit "nginx:1.21", lit "nginx:1.21.6"] }] }
          (lit "nginx:1.21")).wg.doneCalls ≤ 1 ∧
      0 ≤ (ImagePull
          { newClientFails := false, pullFails := fun _ => false, listFails := false,
            list := [{ RepoTags := [lit "nginx:1.21", lit "nginx:1.21.6"] }] }
          (lit "nginx:1.21")).wg.counter ∧
      (matchingTags [{ RepoTags := [lit "nginx:1.21", lit "\"nginx:1.21\""] }]
        (lit "\"nginx:1.21\"")).length ≤ 1 ∧
      (ImagePull
          { newClientFails := false, pullFails := fun _ => false, listFails := false,
            list := [{ RepoTags := [lit "nginx:1.21", lit "\"nginx:1.21\""] }] }
          (lit "\"nginx:1.21\"")).exit = ImagePullExit.checked ∧
      (ImagePull
          { newClientFails := false, pullFails := fun _ => false, listFails := false,
            list := [{ RepoTags := [lit "nginx:1.21", lit "\"nginx:1.21\""] }] }
          (lit "\"nginx:1.21\"")).wg.doneCalls = 1 :=
  ⟨by decide, by decide,
    (ImagePull_done_calls
      { newClientFails := false, pullFails := fun _ => false, listFails := false,
        list := [{ RepoTags := [lit "nginx:1.21", lit "nginx:1.21.6"] }] }
      (lit "nginx:1.21") (Or.inr (by decide))).1,
    (ImagePull_done_calls
      { newClientFails := false, pullFails := fun _ => false, listFails := false,
        list := [{ RepoTags := [lit "nginx:1.21", lit "nginx:1.21.6"] }] }
      (lit "nginx:1.21") (Or.inr (by decide))).2.1,
    by decide, by decide,
    ((ImagePull_done_calls
      { newClientFails := false, pullFails := fun _ => false, listFails := false,
        list := [{ RepoTags := [lit "nginx:1.21", lit "\"nginx:1.21\""] }] }
      (lit "\"nginx:1.21\"") (Or.inl (by decide))).2.2.2 (by decide)).trans (by decide)⟩

end ApiGolang
